import Mathlib

/-!
Verification of the pysettrie library (module `settrie`, version 0.1.3).

The source stores sets of elements of a totally ordered universe in a trie:
each node carries one element (`data`), a terminal marker (`flag_last`), an
optionally used payload (`value`, used by the Map/MultiMap subclasses) and a
sorted list of children.  The Python root is a node whose `data` is `None`
and which has no siblings; we embed it as a separate `Trie` record holding
the root's flag, value and children, and give every proper `Node` a plain
`data : α`.  Children are kept in a `sortedcontainers.SortedList`; we embed
them as a Lean `List` together with the sortedness invariant `sortedData`,
and the mutating operations are translated as the corresponding functional
walks over such sorted lists.

All three container classes share the same recursions (`_add` / `_assign`
differ only in what happens to the final node's value), so the embedding is
parameterised by the value type `ν`, the value `nu0` a freshly constructed
node carries (Python `Node.__init__` sets `value = None`) and the function
`fin` applied to the final node's value (`_add` leaves it alone, the Map
`_assign` overwrites it, the MultiMap `_assign` appends).
-/

namespace PySetTrie

/-- A proper (non-root) trie node: `Node.data`, `Node.flag_last`,
`Node.value` and `Node.children` of the Python classes. -/
inductive Node (α : Type) (ν : Type) : Type where
| mk (data : α) (flag : Bool) (value : ν) (children : List (Node α ν))

/-- A whole container: the Python root node (its `data` is `None` and is
never compared with an element, so it is not stored). -/
structure Trie (α : Type) (ν : Type) : Type where
  rootFlag : Bool
  rootValue : ν
  rootChildren : List (Node α ν)

variable {α : Type} [LinearOrder α] {ν : Type} {β : Type} {ω : Type} {ω' : Type}

def Node.dataN : Node α ν → α
| .mk d _ _ _ => d

def Node.flagN : Node α ν → Bool
| .mk _ f _ _ => f

def Node.valueN : Node α ν → ν
| .mk _ _ v _ => v

def Node.childrenN : Node α ν → List (Node α ν)
| .mk _ _ _ c => c

/-- Python `sorted(aset)`: a stable sort of the iterable's elements in
ascending order (duplicates, if the iterable has any, are kept). -/
def sortQ (l : List α) : List α := List.insertionSort (· ≤ ·) l

/-- A container with nothing stored yet (`SetTrie()` and friends): the root
is a fresh non-terminal node with no children. -/
def emptyTrie (nu0 : ν) : Trie α ν := ⟨false, nu0, []⟩

mutual
/-- The recursion shared by `SetTrie._add`, `SetTrieMap._assign` and
`SetTrieMultiMap._assign`: on `StopIteration` mark the node terminal and
apply `fin` to its value; otherwise find or create the child for the next
element and recurse into it. -/
def addN (nu0 : ν) (fin : ν → ν) : Node α ν → List α → Node α ν
| .mk d _ v cs, [] => .mk d true (fin v) cs
| .mk d f v cs, x :: xs => .mk d f v (addL nu0 fin cs x xs)
termination_by n l => (l.length, sizeOf n)

/-- Find the first child whose `data` equals the next element
(`node.children.index(cls.Node(data))`), or insert a fresh node at its
sorted position (`node.children.add(nextnode)`), and recurse into it. -/
def addL (nu0 : ν) (fin : ν → ν) : List (Node α ν) → α → List α → List (Node α ν)
| [], x, xs => [addN nu0 fin (.mk x false nu0 []) xs]
| c :: cs, x, xs =>
  if c.dataN = x then addN nu0 fin c xs :: cs
  else if x < c.dataN then addN nu0 fin (.mk x false nu0 []) xs :: c :: cs
  else c :: addL nu0 fin cs x xs
termination_by cs x xs => (xs.length + 1, sizeOf cs)
end

/-- Public `add`/`assign`: sort the iterable and run the shared recursion
from the root (`self._add(self.root, iter(sorted(aset)))`). -/
def addT (nu0 : ν) (fin : ν → ν) (t : Trie α ν) (aset : List α) : Trie α ν :=
  match sortQ aset with
  | [] => ⟨true, fin t.rootValue, t.rootChildren⟩
  | x :: xs => ⟨t.rootFlag, t.rootValue, addL nu0 fin t.rootChildren x xs⟩

/-- `SetTrie.add`: mark the final node terminal, values untouched. -/
def addSet (t : Trie α Unit) (aset : List α) : Trie α Unit :=
  addT () id t aset

/-- `SetTrieMap.assign(akey, avalue)`: the final node's value is overwritten
with `avalue` (which may be Python `None`, embedded as `Option.none`). -/
def assignMap (t : Trie α (Option β)) (akey : List α) (avalue : Option β) :
    Trie α (Option β) :=
  addT none (fun _ => avalue) t akey

/-- The `add` method a `SetTrieMap` or `SetTrieMultiMap` inherits from
`SetTrie`: it marks the final node terminal without touching its value. -/
def addMap (t : Trie α (Option β)) (aset : List α) : Trie α (Option β) :=
  addT none id t aset

/-- `SetTrieMultiMap.assign(akey, avalue)`: append `avalue` to the final
node's value list, creating the list first when the value is still `None`. -/
def assignMulti (t : Trie α (Option (List β))) (akey : List α) (avalue : β) :
    Trie α (Option (List β)) :=
  addT none (fun v => some (v.getD [] ++ [avalue])) t akey

mutual
/-- `SetTrie._contains` after the next element has been drawn: the walk is
split over the node's bookkeeping (`flag`, `children`), which is all the
recursion reads, so the same core serves the root and the proper nodes. -/
def containsC : Bool → List (Node α ν) → List α → Bool
| f, _, [] => f
| _, cs, x :: xs => containsFind cs x xs
termination_by f cs q => (q.length, sizeOf cs)

/-- The `node.children.index(cls.Node(data))` lookup of `_contains`: find
the first child whose `data` equals the element, else `False`. -/
def containsFind : List (Node α ν) → α → List α → Bool
| [], _, _ => false
| .mk d f _ gcs :: cs, x, xs =>
  if d = x then containsC f gcs xs else containsFind cs x xs
termination_by cs x xs => (xs.length, sizeOf cs)
end

/-- `SetTrie.contains(aset)`. -/
def containsT (t : Trie α ν) (aset : List α) : Bool :=
  containsC t.rootFlag t.rootChildren (sortQ aset)

/-- `SetTrie._hassuperset(node, setarr, idx)`: the recursion reads only the
current node's children, so it is embedded on the children list; `idx`
becomes the remaining suffix of the sorted query. An empty suffix returns
`True`; otherwise scan the (sorted) children, breaking at the first child
label above the current query element. -/
def hassupL : List (Node α ν) → List α → Bool
| _, [] => true
| [], _ :: _ => false
| .mk d _ _ gcs :: cs, x :: xs =>
  if x < d then false
  else if d = x then (hassupL gcs xs || hassupL cs (x :: xs))
  else (hassupL gcs (x :: xs) || hassupL cs (x :: xs))

/-- `SetTrie.hassuperset(aset)`. -/
def hassupersetT (t : Trie α ν) (aset : List α) : Bool :=
  hassupL t.rootChildren (sortQ aset)

mutual
/-- `SetTrie._iter(node, path)` with the terminal action abstracted: the
Python code pushes `node.data`, yields `_terminate(node, path[1:])` at a
terminal and recurses into the children in order.  `path` here is already
the root-stripped `path[1:]`, and `term` receives the node's value and the
path, covering the `_terminate` overrides of all three classes. -/
def iterN (term : ν → List α → List ω) : Node α ν → List α → List ω
| .mk d f v cs, path =>
  (if f then term v (path ++ [d]) else []) ++ iterL term cs (path ++ [d])

def iterL (term : ν → List α → List ω) : List (Node α ν) → List α → List ω
| [], _ => []
| c :: cs, path => iterN term c path ++ iterL term cs path
end

/-- Full pre-order iteration from the root (`__iter__`). -/
def iterT (term : ν → List α → List ω) (t : Trie α ν) : List ω :=
  (if t.rootFlag then term t.rootValue [] else []) ++ iterL term t.rootChildren []

mutual
/-- The stored sets at or below a node, each as its (root-stripped) label
path relative to the node, the node's own label included.  This is the
path-accumulator of `_iter` with the accumulation factored out; the bridge
lemma `iterL_termKeys_eq_setsL` below identifies the two. -/
def setsN : Node α ν → List (List α)
| .mk d f _ cs => ((if f then [[]] else []) ++ setsL cs).map (fun s => d :: s)

def setsL : List (Node α ν) → List (List α)
| [] => []
| c :: cs => setsN c ++ setsL cs
end

/-- All sets stored in the container, in pre-order: the empty set when the
root is terminal, then the sets under each root child. -/
def storedSets (t : Trie α ν) : List (List α) :=
  (if t.rootFlag then [[]] else []) ++ setsL t.rootChildren

mutual
/-- `SetTrie._itersupersets(node, setarr, path)`: scan the children against
the first remaining query element; once the query is exhausted, emit this
terminal and everything below (`_iter`). -/
def supN (term : ν → List α → List ω) : Node α ν → List α → List α → List ω
| .mk d f v cs, [], path =>
  (if f then term v (path ++ [d]) else []) ++ iterL term cs (path ++ [d])
| .mk d _ _ cs, x :: xs, path => supL term cs x xs (path ++ [d])

def supL (term : ν → List α → List ω) :
    List (Node α ν) → α → List α → List α → List ω
| [], _, _, _ => []
| c :: cs, x, xs, path =>
  if c.dataN < x then supN term c (x :: xs) path ++ supL term cs x xs path
  else if c.dataN = x then supN term c xs path ++ supL term cs x xs path
  else []
end

/-- `SetTrie.itersupersets(aset)` materialised (`supersets`). -/
def supersetsT (term : ν → List α → List ω) (t : Trie α ν) (aset : List α) :
    List ω :=
  match sortQ aset with
  | [] =>
    (if t.rootFlag then term t.rootValue [] else []) ++ iterL term t.rootChildren []
  | x :: xs => supL term t.rootChildren x xs []

mutual
/-- `SetTrie._hassubset(node, setarr, idx)` on the node's bookkeeping: a
terminal node means a stored subset ends here; otherwise try to match the
current query element against a child, and also try skipping it. -/
def hassubC : Bool → List (Node α ν) → List α → Bool
| true, _, _ => true
| false, _, [] => false
| false, cs, x :: xs => hassubFind cs x xs || hassubC false cs xs
termination_by f cs q => (q.length, sizeOf cs, 1)

/-- The `node.children.index(cls.Node(setarr[idx]))` lookup of
`_hassubset`: recurse into the first child carrying the element. -/
def hassubFind : List (Node α ν) → α → List α → Bool
| [], _, _ => false
| .mk d f _ gcs :: cs, x, xs =>
  if d = x then hassubC f gcs xs else hassubFind cs x xs
termination_by cs x xs => (xs.length, sizeOf cs, 0)
end

/-- `SetTrie.hassubset(aset)`. -/
def hassubsetT (t : Trie α ν) (aset : List α) : Bool :=
  hassubC t.rootFlag t.rootChildren (sortQ aset)

mutual
/-- `SetTrie._itersubsets(node, setarr, path)`: emit the path at a terminal
and recurse only into children whose label is a member of the query
(`child.data in setarr` on the raw, unsorted iterable). -/
def subN (term : ν → List α → List ω) : Node α ν → List α → List α → List ω
| .mk d f v cs, aset, path =>
  (if f then term v (path ++ [d]) else []) ++ subL term cs aset (path ++ [d])

def subL (term : ν → List α → List ω) :
    List (Node α ν) → List α → List α → List ω
| [], _, _ => []
| c :: cs, aset, path =>
  (if c.dataN ∈ aset then subN term c aset path else []) ++ subL term cs aset path
end

/-- `SetTrie.itersubsets(aset)` materialised (`subsets`); the query is used
unsorted, purely as a membership oracle. -/
def subsetsT (term : ν → List α → List ω) (t : Trie α ν) (aset : List α) :
    List ω :=
  (if t.rootFlag then term t.rootValue [] else []) ++ subL term t.rootChildren aset []

mutual
/-- `SetTrieMap._get(node, it, default)` on the node's bookkeeping: at the
end of the key return the node's value when terminal, else the default. -/
def getC (dflt : Option β) :
    Bool → Option β → List (Node α (Option β)) → List α → Option β
| f, v, _, [] => if f then v else dflt
| _, _, cs, x :: xs => getFind dflt cs x xs
termination_by f v cs q => (q.length, sizeOf cs)

/-- The child lookup of `_get`: missing child returns the default. -/
def getFind (dflt : Option β) :
    List (Node α (Option β)) → α → List α → Option β
| [], _, _ => dflt
| .mk d f v gcs :: cs, x, xs =>
  if d = x then getC dflt f v gcs xs else getFind dflt cs x xs
termination_by cs x xs => (xs.length, sizeOf cs)
end

/-- `SetTrieMap.get(keyset, default)`. -/
def getT (t : Trie α (Option β)) (keyset : List α) (dflt : Option β) : Option β :=
  getC dflt t.rootFlag t.rootValue t.rootChildren (sortQ keyset)

/-- The terminal action shared by `SetTrie._terminate` (which yields
`set(path)`) and the `mode='keys'` branches of the Map and MultiMap
`_terminate`: one emission, the key set as its sorted label path. -/
def termKeys : ν → List α → List (List α) := fun _ p => [p]

/-- `SetTrieMap._terminate`, `mode='values'`: yield the stored value. -/
def termValuesM : Option β → List α → List (Option β) := fun v _ => [v]

/-- `SetTrieMap._terminate`, default mode: yield the `(keyset, value)` pair. -/
def termPairsM : Option β → List α → List (List α × Option β) :=
  fun v p => [(p, v)]

/-- `SetTrieMultiMap._terminate`, `mode='values'`: yield each stored value
in insertion order (`yield from node.value`; a terminal whose value is
still `None` would raise in Python and emits nothing here). -/
def termValuesMM : Option (List β) → List α → List β := fun v _ => v.getD []

/-- `SetTrieMultiMap._terminate`, default mode: one `(keyset, value)` pair
per stored value occurrence. -/
def termPairsMM : Option (List β) → List α → List (List α × β) :=
  fun v p => (v.getD []).map (fun b => (p, b))

/-- Lower-bound check: the label `d` is strictly below every label in `cs`.
With `sortedData` below this is the sorted-path invariant of the spec. -/
def ltAll (d : α) (cs : List (Node α ν)) : Bool :=
  cs.all (fun c => decide (d < c.dataN))

/-- Sibling labels are pairwise strictly increasing, the contract of the
`sortedcontainers.SortedList` holding `node.children` (unique keys, kept in
ascending order). -/
def sortedData : List (Node α ν) → Bool
| [] => true
| c :: cs => ltAll c.dataN cs && sortedData cs

mutual
/-- The reachable-state invariant of a proper node: it is terminal or has
children (every node was created on some insertion path whose end is
terminal), its children's labels are strictly above its own and pairwise
sorted, and the children satisfy the same invariant. -/
def nodeInv : Node α ν → Bool
| .mk d f _ cs => (f || !cs.isEmpty) && ltAll d cs && sortedData cs && nodesInv cs
termination_by n => sizeOf n

def nodesInv : List (Node α ν) → Bool
| [] => true
| c :: cs => nodeInv c && nodesInv cs
termination_by cs => sizeOf cs
end

/-- Invariant of a sibling list that has no parent label above it. -/
def listInv (cs : List (Node α ν)) : Bool := sortedData cs && nodesInv cs

/-- The reachable-state invariant of a whole container. -/
def trieInv (t : Trie α ν) : Bool := listInv t.rootChildren

mutual
/-- Forget the values, keeping labels, terminal flags and tree shape. -/
def skelN : Node α ν → Node α Unit
| .mk d f _ cs => .mk d f () (skelL cs)
termination_by n => sizeOf n

def skelL : List (Node α ν) → List (Node α Unit)
| [] => []
| c :: cs => skelN c :: skelL cs
termination_by cs => sizeOf cs
end

/-- The container's shape: everything except the stored values. -/
def skelT (t : Trie α ν) : Trie α Unit := ⟨t.rootFlag, (), skelL t.rootChildren⟩

mutual
/-- Terminal-integrity checker: at every node, `flag` is equivalent to the
predicate `pr` holding of the value (spec invariant 3). -/
def intgN (pr : ν → Bool) : Node α ν → Bool
| .mk _ f v cs => (f == pr v) && intgL pr cs
termination_by n => sizeOf n

def intgL (pr : ν → Bool) : List (Node α ν) → Bool
| [] => true
| c :: cs => intgN pr c && intgL pr cs
termination_by cs => sizeOf cs
end

/-- Terminal integrity of the whole container, root included. -/
def intgT (pr : ν → Bool) (t : Trie α ν) : Bool :=
  (t.rootFlag == pr t.rootValue) && intgL pr t.rootChildren

/-- The Map reading of a defined value: `value` is not Python `None`. -/
def prMap : Option β → Bool := Option.isSome

/-- The MultiMap reading: `value` is a non-empty list. -/
def prMulti : Option (List β) → Bool
| some l => !l.isEmpty
| none => false

/-- Python `str.rjust(w, c)`: pad on the left with `c` up to width `w`. -/
def pyRjust (s : String) (w : Nat) (c : Char) : String :=
  String.mk (List.replicate (w - s.length) c) ++ s

mutual
/-- `SetTrie._printtree(node, level, tabchr, tabsize, stream)`: one line per
node, pre-order; the line is `str(node.data)` right-justified to width
`len(repr(node.data)) + level * tabsize`, then `#` when terminal.  The
Python `str` and `repr` renderings of an element are the parameters `strF`
and `reprF`. -/
def printN (strF reprF : α → String) (tabchr : Char) (tabsize : Nat) :
    Node α ν → Nat → List String
| .mk d f _ cs, level =>
  (pyRjust (strF d) ((reprF d).length + level * tabsize) tabchr
      ++ (if f then "#" else ""))
    :: printL strF reprF tabchr tabsize cs (level + 1)
termination_by n level => sizeOf n

def printL (strF reprF : α → String) (tabchr : Char) (tabsize : Nat) :
    List (Node α ν) → Nat → List String
| [], _ => []
| c :: cs, level =>
  printN strF reprF tabchr tabsize c level ++ printL strF reprF tabchr tabsize cs level
termination_by cs level => sizeOf cs
end

/-- `SetTrie.printtree` from the root: the root's `data` is Python `None`,
so its line is `str(None) = "None"` justified to `len(repr(None)) = 4` at
level 0, with the `#` marker when the root is terminal. -/
def printT (strF reprF : α → String) (tabchr : Char) (tabsize : Nat)
    (t : Trie α ν) : List String :=
  (pyRjust "None" ("None".length + 0 * tabsize) tabchr
      ++ (if t.rootFlag then "#" else ""))
    :: printL strF reprF tabchr tabsize t.rootChildren 1

mutual
/-- Number of proper nodes in a subtree. -/
def nodeCount : Node α ν → Nat
| .mk _ _ _ cs => 1 + nodeCountL cs
termination_by n => sizeOf n

def nodeCountL : List (Node α ν) → Nat
| [] => 0
| c :: cs => nodeCount c + nodeCountL cs
termination_by cs => sizeOf cs
end

/-- Some element occurs twice in adjacent positions. On a sorted list this
is equivalent to the list not being duplicate-free. -/
def hasAdjDup : List α → Bool
| [] => false
| [_] => false
| x :: y :: t => decide (x = y) || hasAdjDup (y :: t)

mutual
/-- Mutual structural induction for the nested inductive `Node`. -/
theorem nodeInd {P : Node α ν → Prop} {Q : List (Node α ν) → Prop}
    (h1 : ∀ d f v cs, Q cs → P (.mk d f v cs))
    (h2 : Q []) (h3 : ∀ c cs, P c → Q cs → Q (c :: cs)) : ∀ n, P n
| .mk d f v cs => h1 d f v cs (nodesInd h1 h2 h3 cs)

theorem nodesInd {P : Node α ν → Prop} {Q : List (Node α ν) → Prop}
    (h1 : ∀ d f v cs, Q cs → P (.mk d f v cs))
    (h2 : Q []) (h3 : ∀ c cs, P c → Q cs → Q (c :: cs)) : ∀ cs, Q cs
| [] => h2
| c :: cs => h3 c cs (nodeInd h1 h2 h3 c) (nodesInd h1 h2 h3 cs)
end

@[simp] theorem dataN_mk (d : α) (f : Bool) (v : ν) (cs : List (Node α ν)) :
    (Node.mk d f v cs).dataN = d := rfl

@[simp] theorem flagN_mk (d : α) (f : Bool) (v : ν) (cs : List (Node α ν)) :
    (Node.mk d f v cs).flagN = f := rfl

@[simp] theorem valueN_mk (d : α) (f : Bool) (v : ν) (cs : List (Node α ν)) :
    (Node.mk d f v cs).valueN = v := rfl

@[simp] theorem childrenN_mk (d : α) (f : Bool) (v : ν) (cs : List (Node α ν)) :
    (Node.mk d f v cs).childrenN = cs := rfl

theorem sortQ_perm (l : List α) : List.Perm (sortQ l) l :=
  List.perm_insertionSort _ _

theorem sortQ_sorted (l : List α) : List.Sorted (· ≤ ·) (sortQ l) :=
  List.sorted_insertionSort _ l

theorem mem_sortQ {l : List α} {y : α} : y ∈ sortQ l ↔ y ∈ l :=
  (sortQ_perm l).mem_iff

theorem sortQ_nil_iff {l : List α} : sortQ l = [] ↔ l = [] := by
  constructor
  · intro h
    have hp := sortQ_perm l
    rw [h] at hp
    exact hp.symm.eq_nil
  · intro h; subst h; rfl

theorem sortQ_pairwise_lt {l : List α} (h : l.Nodup) :
    (sortQ l).Pairwise (· < ·) := by
  have hs : (sortQ l).Pairwise (· ≤ ·) := sortQ_sorted l
  have hn : (sortQ l).Pairwise (· ≠ ·) := (sortQ_perm l).nodup_iff.mpr h
  exact (hs.and hn).imp (fun hab => lt_of_le_of_ne hab.1 hab.2)

theorem nodesInv_cons {c : Node α ν} {cs : List (Node α ν)} :
    nodesInv (c :: cs) = (nodeInv c && nodesInv cs) := by
  rw [nodesInv]

theorem nodeInv_mk {d : α} {f : Bool} {v : ν} {cs : List (Node α ν)} :
    nodeInv (.mk d f v cs) =
      ((f || !cs.isEmpty) && ltAll d cs && sortedData cs && nodesInv cs) := by
  rw [nodeInv]

theorem sortedData_cons {c : Node α ν} {cs : List (Node α ν)} :
    sortedData (c :: cs) = (ltAll c.dataN cs && sortedData cs) := rfl

theorem setsN_mk {d : α} {f : Bool} {v : ν} {cs : List (Node α ν)} :
    setsN (.mk d f v cs) =
      ((if f then [[]] else []) ++ setsL cs).map (fun s => d :: s) := by
  rw [setsN]

theorem setsL_cons {c : Node α ν} {cs : List (Node α ν)} :
    setsL (c :: cs) = setsN c ++ setsL cs := by
  rw [setsL]

theorem setsL_nil : setsL ([] : List (Node α ν)) = [] := by
  rw [setsL]

theorem mem_setsL {cs : List (Node α ν)} {s : List α} :
    s ∈ setsL cs ↔ ∃ c ∈ cs, s ∈ setsN c := by
  induction cs with
  | nil => simp [setsL_nil]
  | cons c cs ih => simp [setsL_cons, ih]

theorem mem_setsN {d : α} {f : Bool} {v : ν} {cs : List (Node α ν)} {s : List α} :
    s ∈ setsN (.mk d f v cs) ↔
      (f = true ∧ s = [d]) ∨ ∃ s', s' ∈ setsL cs ∧ s = d :: s' := by
  rw [setsN_mk]
  cases f <;> simp [List.mem_map, eq_comm]

theorem setsN_shape {n : Node α ν} {s : List α} (h : s ∈ setsN n) :
    ∃ s', s = n.dataN :: s' := by
  cases n with
  | mk d f v cs =>
    rcases mem_setsN.mp h with ⟨_, rfl⟩ | ⟨s', _, rfl⟩
    · exact ⟨[], rfl⟩
    · exact ⟨s', rfl⟩

theorem setsL_ne_nil_of_mem {cs : List (Node α ν)} {c : Node α ν}
    (hc : c ∈ cs) (h : setsN c ≠ []) : setsL cs ≠ [] := by
  intro hnil
  exact h (List.eq_nil_of_subset_nil (fun s hs => hnil ▸ mem_setsL.mpr ⟨c, hc, hs⟩))

theorem setsN_ne_nil : ∀ n : Node α ν, nodeInv n = true → setsN n ≠ [] := by
  refine nodeInd (Q := fun cs => nodesInv cs = true → ∀ c ∈ cs, setsN c ≠ []) ?_ ?_ ?_
  · intro d f v cs hQ hinv
    rw [nodeInv_mk] at hinv
    simp only [Bool.and_eq_true] at hinv
    obtain ⟨⟨⟨hlive, _⟩, _⟩, hcs⟩ := hinv
    cases f with
    | true =>
      exact List.ne_nil_of_mem (mem_setsN.mpr (Or.inl ⟨rfl, rfl⟩))
    | false =>
      simp only [Bool.false_or] at hlive
      cases cs with
      | nil => simp at hlive
      | cons c cs =>
        have h1 : setsN c ≠ [] := hQ hcs c (List.mem_cons_self _ _)
        obtain ⟨s, hs⟩ := List.exists_mem_of_ne_nil _ h1
        exact List.ne_nil_of_mem (mem_setsN.mpr
          (Or.inr ⟨s, mem_setsL.mpr ⟨c, List.mem_cons_self _ _, hs⟩, rfl⟩))
  · intro _ c hc
    simp at hc
  · intro c cs hc hcs hinv c' hc'
    rw [nodesInv_cons, Bool.and_eq_true] at hinv
    rcases List.mem_cons.mp hc' with rfl | h
    · exact hc hinv.1
    · exact hcs hinv.2 c' h

theorem ltAll_mem {d : α} {cs : List (Node α ν)} (h : ltAll d cs = true)
    {c : Node α ν} (hc : c ∈ cs) : d < c.dataN := by
  have := List.all_eq_true.mp h c hc
  exact of_decide_eq_true this

theorem nodesInv_mem {cs : List (Node α ν)} (h : nodesInv cs = true)
    {c : Node α ν} (hc : c ∈ cs) : nodeInv c = true := by
  induction cs with
  | nil => simp at hc
  | cons c0 cs ih =>
    rw [nodesInv_cons, Bool.and_eq_true] at h
    rcases List.mem_cons.mp hc with rfl | h'
    · exact h.1
    · exact ih h.2 h'

theorem setsN_sorted : ∀ n : Node α ν, nodeInv n = true →
    ∀ s ∈ setsN n, s.Pairwise (· < ·) ∧ ∀ y ∈ s, n.dataN ≤ y := by
  refine nodeInd
    (Q := fun cs => nodesInv cs = true →
      ∀ c ∈ cs, ∀ s ∈ setsN c, s.Pairwise (· < ·) ∧ ∀ y ∈ s, c.dataN ≤ y)
    ?_ ?_ ?_
  · intro d f v cs hQ hinv s hs
    rw [nodeInv_mk] at hinv
    simp only [Bool.and_eq_true] at hinv
    obtain ⟨⟨⟨_, hlt⟩, _⟩, hcs⟩ := hinv
    rcases mem_setsN.mp hs with ⟨_, rfl⟩ | ⟨s', hs', rfl⟩
    · exact ⟨List.pairwise_singleton _ _, by simp⟩
    · obtain ⟨c, hc, hsc⟩ := mem_setsL.mp hs'
      obtain ⟨hpw, hlb⟩ := hQ hcs c hc s' hsc
      have hdc : d < c.dataN := ltAll_mem hlt hc
      constructor
      · refine List.pairwise_cons.mpr ⟨?_, hpw⟩
        intro y hy
        exact lt_of_lt_of_le hdc (hlb y hy)
      · intro y hy
        rcases List.mem_cons.mp hy with rfl | hy'
        · simp
        · exact le_of_lt (lt_of_lt_of_le hdc (hlb y hy'))
  · intro _ c hc
    simp at hc
  · intro c cs hc hcs hinv c' hc'
    rw [nodesInv_cons, Bool.and_eq_true] at hinv
    rcases List.mem_cons.mp hc' with rfl | h
    · exact hc hinv.1
    · exact hcs hinv.2 c' h

/-- The exact-match walk of `_get` as it applies at a proper node (proof
plumbing: it packages the node's bookkeeping for `getC`). -/
def getNode (dflt : Option β) (n : Node α (Option β)) (q : List α) : Option β :=
  getC dflt n.flagN n.valueN n.childrenN q

/-- A small SetTrie storing the sets 13 and 2, used to apply the general
theorems at concrete inputs. -/
def tW : Trie Nat Unit := addSet (addSet (emptyTrie ()) [1, 3]) [2]

/-- A small SetTrieMap: 13 maps to A, 2 maps to B. -/
def mW : Trie Nat (Option String) :=
  assignMap (assignMap (emptyTrie none) [1, 3] (some "A")) [2] (some "B")

/-- A small SetTrieMultiMap: the key 1 holds the two values a and b. -/
def mmW : Trie Nat (Option (List String)) :=
  assignMulti (assignMulti (emptyTrie none) [1] "a") [1] "b"

/-- A SetTrie over strings holding the single set with the element a; it
equals the result of adding that set to an empty trie. -/
def tStr : Trie String Unit := ⟨false, (), [Node.mk "a" true () []]⟩

theorem bor_iff {a b : Bool} : (a || b) = true ↔ a = true ∨ b = true := by
  simp

theorem band_iff {a b : Bool} : (a && b) = true ↔ a = true ∧ b = true := by
  simp

theorem nodeBothInd {P : Node α ν → Prop} {Q : List (Node α ν) → Prop}
    (h1 : ∀ d f v cs, Q cs → P (.mk d f v cs))
    (h2 : Q []) (h3 : ∀ c cs, P c → Q cs → Q (c :: cs)) :
    (∀ n, P n) ∧ (∀ cs, Q cs) :=
  ⟨nodeInd h1 h2 h3, nodesInd h1 h2 h3⟩

theorem nodeInv_parts {d : α} {f : Bool} {v : ν} {cs : List (Node α ν)}
    (h : nodeInv (.mk d f v cs) = true) :
    (f = true ∨ cs ≠ []) ∧ ltAll d cs = true ∧ sortedData cs = true ∧
      nodesInv cs = true := by
  rw [nodeInv_mk] at h
  simp only [Bool.and_eq_true] at h
  refine ⟨?_, h.1.1.2, h.1.2, h.2⟩
  rcases bor_iff.mp h.1.1.1 with h' | h'
  · exact Or.inl h'
  · right
    intro hh
    subst hh
    simp at h'

theorem sortedData_parts {c : Node α ν} {cs : List (Node α ν)}
    (h : sortedData (c :: cs) = true) :
    ltAll c.dataN cs = true ∧ sortedData cs = true := by
  rw [sortedData_cons] at h
  exact band_iff.mp h

theorem nodesInv_parts {c : Node α ν} {cs : List (Node α ν)}
    (h : nodesInv (c :: cs) = true) :
    nodeInv c = true ∧ nodesInv cs = true := by
  rw [nodesInv_cons] at h
  exact band_iff.mp h

/-- Bridge between the faithful path-accumulating iteration and the direct
description of the stored sets: `_iter` with the SetTrie `_terminate`
yields exactly the stored label paths, each prefixed by the accumulated
path. -/
theorem iter_termKeys_eq :
    (∀ n : Node α ν, ∀ p, iterN termKeys n p = (setsN n).map (fun s => p ++ s)) ∧
    (∀ cs : List (Node α ν), ∀ p,
      iterL termKeys cs p = (setsL cs).map (fun s => p ++ s)) := by
  refine nodeBothInd ?_ ?_ ?_
  · intro d f v cs hQ p
    rw [iterN, setsN_mk, hQ]
    cases f <;> simp [termKeys, List.map_map, Function.comp]
  · intro p
    rw [iterL, setsL_nil]
    simp
  · intro c cs hc hcs p
    rw [iterL, setsL_cons, hc, hcs, List.map_append]

/-- Full iteration of a SetTrie enumerates exactly the stored sets. -/
theorem iterT_termKeys_eq_storedSets (t : Trie α ν) :
    iterT termKeys t = storedSets t := by
  rw [iterT, storedSets, iter_termKeys_eq.2]
  cases h : t.rootFlag <;> simp [termKeys]

/-- Soundness of `_hassuperset`: when the scan succeeds, some stored set
below the scanned children contains every query element (liveness of the
reachable states is what lets the `idx = m` base case stand for an actual
stored set). -/
theorem hassupL_sound :
    (∀ n : Node α ν, nodeInv n = true → ∀ q : List α,
      hassupL n.childrenN q = true → ∃ s ∈ setsN n, ∀ y ∈ q, y ∈ s) ∧
    (∀ cs : List (Node α ν), nodesInv cs = true → ∀ x : α, ∀ xs : List α,
      hassupL cs (x :: xs) = true → ∃ s ∈ setsL cs, ∀ y ∈ x :: xs, y ∈ s) := by
  refine nodeBothInd ?_ ?_ ?_
  · intro d f v cs hQ hinv q hq
    obtain ⟨_, _, _, hcsinv⟩ := nodeInv_parts hinv
    cases q with
    | nil =>
      obtain ⟨s, hs⟩ := List.exists_mem_of_ne_nil _ (setsN_ne_nil _ hinv)
      exact ⟨s, hs, by simp⟩
    | cons x xs =>
      obtain ⟨s, hs, hsub⟩ := hQ hcsinv x xs (by simpa using hq)
      exact ⟨d :: s, mem_setsN.mpr (Or.inr ⟨s, hs, rfl⟩),
        fun y hy => List.mem_cons_of_mem d (hsub y hy)⟩
  · intro _ x xs h
    rw [hassupL] at h
    exact absurd h (by simp)
  · intro c cs hc hcs hinv x xs h
    obtain ⟨hcinv, hcsinv⟩ := nodesInv_parts hinv
    cases c with
    | mk e fe ve gcs =>
      rw [hassupL] at h
      by_cases hxe : x < e
      · rw [if_pos hxe] at h
        exact absurd h (by simp)
      · rw [if_neg hxe] at h
        by_cases hex : e = x
        · rw [if_pos hex] at h
          rcases bor_iff.mp h with h' | h'
          · obtain ⟨s, hs, hsub⟩ := hc hcinv xs h'
            obtain ⟨s', rfl⟩ := setsN_shape hs
            refine ⟨e :: s', by rw [setsL_cons]; exact List.mem_append_left _ hs, ?_⟩
            intro y hy
            rcases List.mem_cons.mp hy with rfl | hy'
            · rw [hex]
              exact List.mem_cons_self _ _
            · exact hsub y hy'
          · obtain ⟨s, hs, hsub⟩ := hcs hcsinv x xs h'
            exact ⟨s, by rw [setsL_cons]; exact List.mem_append_right _ hs, hsub⟩
        · rw [if_neg hex] at h
          rcases bor_iff.mp h with h' | h'
          · obtain ⟨s, hs, hsub⟩ := hc hcinv (x :: xs) h'
            exact ⟨s, by rw [setsL_cons]; exact List.mem_append_left _ hs, hsub⟩
          · obtain ⟨s, hs, hsub⟩ := hcs hcsinv x xs h'
            exact ⟨s, by rw [setsL_cons]; exact List.mem_append_right _ hs, hsub⟩

/-- Completeness of `_hassuperset`: on a sorted duplicate-free query, if
some stored set below the children contains every query element, the scan
finds it.  Needs the sorted-sibling and sorted-path invariants. -/
theorem hassupL_complete :
    (∀ n : Node α ν, nodeInv n = true → ∀ x : α, ∀ xs s : List α,
      (x :: xs).Pairwise (· < ·) → s ∈ setsL n.childrenN →
      (∀ y ∈ x :: xs, y ∈ s) → hassupL n.childrenN (x :: xs) = true) ∧
    (∀ cs : List (Node α ν), sortedData cs = true → nodesInv cs = true →
      ∀ x : α, ∀ xs s : List α, (x :: xs).Pairwise (· < ·) → s ∈ setsL cs →
      (∀ y ∈ x :: xs, y ∈ s) → hassupL cs (x :: xs) = true) := by
  refine nodeBothInd ?_ ?_ ?_
  · intro d f v cs hQ hinv x xs s hpw hs hsub
    obtain ⟨_, _, hsd, hni⟩ := nodeInv_parts hinv
    exact hQ hsd hni x xs s hpw (by simpa using hs) hsub
  · intro _ _ x xs s _ hs _
    rw [setsL_nil] at hs
    simp at hs
  · intro c cs hc hcs hsd hni x xs s hpw hs hsub
    obtain ⟨hlt, hsd'⟩ := sortedData_parts hsd
    obtain ⟨hcinv, hni'⟩ := nodesInv_parts hni
    cases c with
    | mk e fe ve gcs =>
      rw [setsL_cons] at hs
      rw [hassupL]
      rcases List.mem_append.mp hs with hmem | hmem
      · -- the witness set lies below the head child
        obtain ⟨s', rfl⟩ := setsN_shape hmem
        have hsort := setsN_sorted _ hcinv _ hmem
        have hxges : x = e ∨ x ∈ s' := by
          simpa using List.mem_cons.mp (hsub x (List.mem_cons_self _ _))
        have hxe : ¬ x < e := by
          rcases hxges with rfl | hx'
          · exact lt_irrefl _
          · have : (e : α) < x := (List.pairwise_cons.mp hsort.1).1 x hx'
            exact not_lt_of_gt this
        rw [if_neg hxe]
        by_cases hex : e = x
        · rw [if_pos hex]
          refine bor_iff.mpr (Or.inl ?_)
          cases xs with
          | nil => rw [hassupL]
          | cons x' xs' =>
            have hsub' : ∀ y ∈ x' :: xs', y ∈ s' := by
              intro y hy
              have hxy : x < y := (List.pairwise_cons.mp hpw).1 y hy
              have := hsub y (List.mem_cons_of_mem _ hy)
              rcases List.mem_cons.mp this with rfl | hy'
              · exact absurd hxy (by rw [hex]; exact lt_irrefl _)
              · exact hy'
            have hs'' : s' ∈ setsL gcs := by
              rcases mem_setsN.mp hmem with ⟨_, hh⟩ | ⟨s'', hs'', hh⟩
              · have hnil : s' = [] := by simpa using hh
                rw [hnil] at hsub'
                exact absurd (hsub' x' (List.mem_cons_self _ _)) (List.not_mem_nil _)
              · have heq2 : s' = s'' := by simpa using hh
                rw [heq2]
                exact hs''
            exact hc hcinv x' xs' s' (List.pairwise_cons.mp hpw).2 hs'' hsub'
        · rw [if_neg hex]
          refine bor_iff.mpr (Or.inl ?_)
          have hx' : x ∈ s' := by
            rcases hxges with rfl | hx'
            · exact absurd rfl hex
            · exact hx'
          have hsub' : ∀ y ∈ x :: xs, y ∈ s' := by
            intro y hy
            have hmem2 := hsub y hy
            rcases List.mem_cons.mp hmem2 with heq | hy'
            · exfalso
              rcases List.mem_cons.mp hy with rfl | hy''
              · exact hex heq.symm
              · have hxy : x < y := (List.pairwise_cons.mp hpw).1 y hy''
                have hys : e < x := (List.pairwise_cons.mp hsort.1).1 x hx'
                rw [heq] at hxy
                exact absurd (lt_trans hys hxy) (lt_irrefl _)
            · exact hy'
          have hs'' : s' ∈ setsL gcs := by
            rcases mem_setsN.mp hmem with ⟨_, hh⟩ | ⟨s'', hs'', hh⟩
            · have : s' = [] := by simpa using hh
              subst this
              simp at hx'
            · have : s' = s'' := by simpa using hh
              subst this
              exact hs''
          exact hc hcinv x xs s' hpw hs'' hsub'
      · -- the witness set lies below a later sibling
        obtain ⟨c', hc', hmem'⟩ := mem_setsL.mp hmem
        obtain ⟨s', rfl⟩ := setsN_shape hmem'
        have hed : e < c'.dataN := ltAll_mem hlt hc'
        have hxin : x ∈ c'.dataN :: s' := hsub x (List.mem_cons_self _ _)
        have hcinv' : nodeInv c' = true := nodesInv_mem hni' hc'
        have hsort' := setsN_sorted _ hcinv' _ hmem'
        have hdx : c'.dataN ≤ x := by
          rcases List.mem_cons.mp hxin with rfl | hx'
          · exact le_refl _
          · exact le_of_lt ((List.pairwise_cons.mp hsort'.1).1 x hx')
        have hxe : ¬ x < e := fun hcon => absurd (lt_trans hcon hed) (not_lt_of_ge hdx)
        have hex : e ≠ x := fun hh => absurd (hh ▸ hed) (not_lt_of_ge hdx)
        rw [if_neg hxe, if_neg hex]
        exact bor_iff.mpr (Or.inr (hcs hsd' hni' x xs _ hpw hmem hsub))

/-- Boolean subset test between a query list and a stored path. -/
def subOf (q s : List α) : Bool := q.all (fun y => decide (y ∈ s))

theorem subOf_iff {q s : List α} : subOf q s = true ↔ ∀ y ∈ q, y ∈ s := by
  simp [subOf]

/-- The superset enumeration is exactly the pre-order list of stored sets
filtered by the superset condition: `_itersupersets` visits, per child, the
single branch the trichotomy against the current query element selects, so
each qualifying stored set is emitted once, in pre-order. -/
theorem supL_filter :
    (∀ n : Node α ν, nodeInv n = true → ∀ q p : List α, q.Pairwise (· < ·) →
      (∀ y ∈ q, n.dataN < y) →
      supN termKeys n q p = ((setsN n).filter (subOf q)).map (fun s => p ++ s)) ∧
    (∀ cs : List (Node α ν), sortedData cs = true → nodesInv cs = true →
      ∀ x : α, ∀ xs p : List α, (x :: xs).Pairwise (· < ·) →
      supL termKeys cs x xs p =
        ((setsL cs).filter (subOf (x :: xs))).map (fun s => p ++ s)) := by
  refine nodeBothInd ?_ ?_ ?_
  · intro d f v cs hQ hinv q p hpw hgt
    obtain ⟨_, _, hsd, hni⟩ := nodeInv_parts hinv
    cases q with
    | nil =>
      rw [supN, iter_termKeys_eq.2, setsN_mk]
      have hfilter :
          (((if f then [[]] else []) ++ setsL cs).map (fun s => d :: s)).filter
              (subOf []) =
            ((if f then [[]] else []) ++ setsL cs).map (fun s => d :: s) := by
        apply List.filter_eq_self.mpr
        intro a _
        simp [subOf]
      rw [hfilter]
      cases f <;> simp [termKeys, List.map_map, Function.comp]
    | cons x xs =>
      rw [supN, hQ hsd hni x xs (p ++ [d]) hpw, setsN_mk, List.filter_map]
      have hcongr : List.filter ((subOf (x :: xs)) ∘ (fun s => d :: s))
            ((if f then [[]] else []) ++ setsL cs) =
          List.filter (subOf (x :: xs)) ((if f then [[]] else []) ++ setsL cs) := by
        apply List.filter_congr
        intro s₀ _
        show subOf (x :: xs) (d :: s₀) = subOf (x :: xs) s₀
        rcases h0 : subOf (x :: xs) s₀ with _ | _
        · rcases h1 : subOf (x :: xs) (d :: s₀) with _ | _
          · rfl
          · exfalso
            have hall := subOf_iff.mp h1
            have hsub2 : ∀ y ∈ x :: xs, y ∈ s₀ := by
              intro y hy
              rcases List.mem_cons.mp (hall y hy) with heq | hy'
              · exact absurd (heq ▸ hgt y hy) (lt_irrefl _)
              · exact hy'
            rw [subOf_iff.mpr hsub2] at h0
            exact Bool.false_ne_true h0.symm
        · rcases h1 : subOf (x :: xs) (d :: s₀) with _ | _
          · exfalso
            have hall := subOf_iff.mp h0
            have hsub2 : ∀ y ∈ x :: xs, y ∈ d :: s₀ :=
              fun y hy => List.mem_cons_of_mem _ (hall y hy)
            rw [subOf_iff.mpr hsub2] at h1
            exact Bool.false_ne_true h1.symm
          · rfl
      rw [hcongr, List.filter_append]
      have hif : List.filter (subOf (x :: xs)) (if f then [[]] else []) =
          ([] : List (List α)) := by
        cases f <;> simp [subOf]
      rw [hif, List.nil_append, List.map_map]
      refine List.map_congr_left ?_
      intro s _
      simp
  · intro _ _ x xs p _
    rw [supL, setsL_nil]
    simp
  · intro c cs hc hcs hsd hni x xs p hpw
    obtain ⟨hlt, hsd'⟩ := sortedData_parts hsd
    obtain ⟨hcinv, hni'⟩ := nodesInv_parts hni
    cases c with
    | mk e fe ve gcs =>
      rw [supL, setsL_cons, List.filter_append, List.map_append]
      by_cases hlt1 : e < x
      · rw [if_pos (by simpa using hlt1)]
        have hgt : ∀ y ∈ x :: xs, (Node.mk e fe ve gcs).dataN < y := by
          intro y hy
          rcases List.mem_cons.mp hy with rfl | hy'
          · simpa using hlt1
          · have : x < y := (List.pairwise_cons.mp hpw).1 y hy'
            simpa using lt_trans hlt1 this
        rw [hc hcinv (x :: xs) p hpw hgt, hcs hsd' hni' x xs p hpw]
      · rw [if_neg (by simpa using hlt1)]
        by_cases heq : e = x
        · rw [if_pos (by simpa using heq)]
          have hgt : ∀ y ∈ xs, (Node.mk e fe ve gcs).dataN < y := by
            intro y hy
            have : x < y := (List.pairwise_cons.mp hpw).1 y hy
            simpa [heq] using this
          rw [hc hcinv xs p (List.pairwise_cons.mp hpw).2 hgt,
            hcs hsd' hni' x xs p hpw]
          have : (setsN (Node.mk e fe ve gcs)).filter (subOf (x :: xs)) =
              (setsN (Node.mk e fe ve gcs)).filter (subOf xs) := by
            apply List.filter_congr
            intro s hs
            obtain ⟨s', rfl⟩ := setsN_shape hs
            rcases h0 : subOf xs ((Node.mk e fe ve gcs).dataN :: s') with _ | _
            · rcases h1 : subOf (x :: xs) ((Node.mk e fe ve gcs).dataN :: s') with _ | _
              · rfl
              · exfalso
                have hall := subOf_iff.mp h1
                have : ∀ y ∈ xs, y ∈ (Node.mk e fe ve gcs).dataN :: s' :=
                  fun y hy => hall y (List.mem_cons_of_mem _ hy)
                rw [subOf_iff.mpr this] at h0
                exact Bool.false_ne_true h0.symm
            · rcases h1 : subOf (x :: xs) ((Node.mk e fe ve gcs).dataN :: s') with _ | _
              · exfalso
                have hall := subOf_iff.mp h0
                have : ∀ y ∈ x :: xs, y ∈ (Node.mk e fe ve gcs).dataN :: s' := by
                  intro y hy
                  rcases List.mem_cons.mp hy with rfl | hy'
                  · rw [← heq]
                    simp
                  · exact hall y hy'
                rw [subOf_iff.mpr this] at h1
                exact Bool.false_ne_true h1.symm
              · rfl
          rw [this]
        · rw [if_neg (by simpa using heq)]
          have hxe : x < e := by
            rcases lt_trichotomy x e with h | h | h
            · exact h
            · exact absurd h.symm heq
            · exact absurd h hlt1
          have hnil1 : (setsN (Node.mk e fe ve gcs)).filter (subOf (x :: xs)) = [] := by
            apply List.filter_eq_nil_iff.mpr
            intro s hs
            intro hsub
            have hall := subOf_iff.mp hsub
            have hx := hall x (List.mem_cons_self _ _)
            have hle := (setsN_sorted _ hcinv s hs).2 x hx
            simp only [dataN_mk] at hle
            exact absurd (lt_of_lt_of_le hxe hle) (lt_irrefl _)
          have hnil2 : (setsL cs).filter (subOf (x :: xs)) = [] := by
            apply List.filter_eq_nil_iff.mpr
            intro s hs
            intro hsub
            obtain ⟨c', hc', hs'⟩ := mem_setsL.mp hs
            have hall := subOf_iff.mp hsub
            have hx := hall x (List.mem_cons_self _ _)
            have hle := (setsN_sorted _ (nodesInv_mem hni' hc') s hs').2 x hx
            have hee : (Node.mk e fe ve gcs).dataN < c'.dataN := ltAll_mem hlt hc'
            simp only [dataN_mk] at hee
            exact absurd (lt_of_lt_of_le (lt_trans hxe hee) hle) (lt_irrefl _)
          rw [hnil1, hnil2]
          simp

/-- Soundness of `_hassubset`: success means the node itself is terminal or
some stored set below the children lies inside the query (the path to the
success point consists of matched query elements only). -/
theorem hassubC_sound : ∀ q : List α, ∀ (f : Bool) (cs : List (Node α ν)),
    hassubC f cs q = true → f = true ∨ ∃ s ∈ setsL cs, ∀ y ∈ s, y ∈ q := by
  intro q
  induction q with
  | nil =>
    intro f cs h
    cases f with
    | true => exact Or.inl rfl
    | false =>
      rw [hassubC] at h
      exact absurd h (by simp)
  | cons x xs ih =>
    intro f cs h
    cases f with
    | true => exact Or.inl rfl
    | false =>
      rw [hassubC] at h
      rcases bor_iff.mp h with h' | h'
      · right
        clear h
        revert h'
        induction cs with
        | nil =>
          intro h'
          rw [hassubFind] at h'
          exact absurd h' (by simp)
        | cons c cs ihc =>
          intro h'
          cases c with
          | mk e fe ve gcs =>
            rw [hassubFind] at h'
            by_cases hex : e = x
            · rw [if_pos hex] at h'
              rcases ih fe gcs h' with hfe | ⟨s', hs', hsub'⟩
              · refine ⟨[e], ?_, ?_⟩
                · rw [setsL_cons]
                  exact List.mem_append_left _ (mem_setsN.mpr (Or.inl ⟨hfe, rfl⟩))
                · intro y hy
                  simp only [List.mem_singleton] at hy
                  subst hy
                  rw [hex]
                  exact List.mem_cons_self _ _
              · refine ⟨e :: s', ?_, ?_⟩
                · rw [setsL_cons]
                  exact List.mem_append_left _ (mem_setsN.mpr (Or.inr ⟨s', hs', rfl⟩))
                · intro y hy
                  rcases List.mem_cons.mp hy with rfl | hy'
                  · rw [hex]
                    exact List.mem_cons_self _ _
                  · exact List.mem_cons_of_mem _ (hsub' y hy')
            · rw [if_neg hex] at h'
              obtain ⟨s, hs, hsub⟩ := ihc h'
              refine ⟨s, ?_, hsub⟩
              rw [setsL_cons]
              exact List.mem_append_right _ hs
      · rcases ih false cs h' with hh | ⟨s, hs, hsub⟩
        · exact absurd hh (by simp)
        · exact Or.inr ⟨s, hs, fun y hy => List.mem_cons_of_mem _ (hsub y hy)⟩

/-- The `children.index` step of `_hassubset` reaches the unique child
carrying the wanted element (sibling labels are pairwise distinct). -/
theorem hassubFind_found {x : α} {xs : List α} :
    ∀ {cs : List (Node α ν)}, sortedData cs = true → ∀ {c : Node α ν},
    c ∈ cs → c.dataN = x → hassubC c.flagN c.childrenN xs = true →
    hassubFind cs x xs = true := by
  intro cs
  induction cs with
  | nil =>
    intro _ c hc
    simp at hc
  | cons c₀ cs ihc =>
    intro hsd c hc hdx hcont
    obtain ⟨hlt, hsd'⟩ := sortedData_parts hsd
    cases c₀ with
    | mk e fe ve gcs =>
      rw [hassubFind]
      by_cases hex : e = x
      · rw [if_pos hex]
        rcases List.mem_cons.mp hc with rfl | hmem
        · simpa using hcont
        · exfalso
          have hlt2 := ltAll_mem hlt hmem
          simp only [dataN_mk] at hlt2
          rw [hdx, ← hex] at hlt2
          exact lt_irrefl _ hlt2
      · rw [if_neg hex]
        rcases List.mem_cons.mp hc with rfl | hmem
        · exact absurd (by simpa using hdx) hex
        · exact ihc hsd' hmem hdx hcont

/-- Completeness of `_hassubset` on a sorted (ascending) query: a terminal
root or any stored subset of the query makes the search succeed. -/
theorem hassubC_complete : ∀ q : List α, ∀ (f : Bool) (cs : List (Node α ν)),
    sortedData cs = true → nodesInv cs = true → List.Sorted (· ≤ ·) q →
    (f = true ∨ ∃ s ∈ setsL cs, ∀ y ∈ s, y ∈ q) → hassubC f cs q = true := by
  intro q
  induction q with
  | nil =>
    intro f cs _ _ _ h
    rcases h with rfl | ⟨s, hs, hsub⟩
    · rw [hassubC]
    · obtain ⟨c, hc, hsc⟩ := mem_setsL.mp hs
      obtain ⟨s', rfl⟩ := setsN_shape hsc
      exact absurd (hsub _ (List.mem_cons_self _ _)) (List.not_mem_nil _)
  | cons x xs ih =>
    intro f cs hsd hni hsort h
    rcases h with rfl | ⟨s, hs, hsub⟩
    · rw [hassubC]
    · cases f with
      | true => rw [hassubC]
      | false =>
        rw [hassubC]
        obtain ⟨c, hc, hsc⟩ := mem_setsL.mp hs
        obtain ⟨s', rfl⟩ := setsN_shape hsc
        have hcinv : nodeInv c = true := nodesInv_mem hni hc
        have hpw := (setsN_sorted _ hcinv _ hsc).1
        have hdq : c.dataN ∈ x :: xs := hsub _ (List.mem_cons_self _ _)
        by_cases hdx : c.dataN = x
        · refine bor_iff.mpr (Or.inl ?_)
          cases c with
          | mk e fe ve gcs =>
            obtain ⟨_, _, hsdg, hnig⟩ := nodeInv_parts hcinv
            refine hassubFind_found hsd hc hdx ?_
            simp only [flagN_mk, childrenN_mk]
            simp only [dataN_mk] at hdx
            rcases mem_setsN.mp hsc with ⟨hfe, _⟩ | ⟨s'', hs'', hseq⟩
            · subst hfe
              rw [hassubC]
            · have hseq2 : s' = s'' := by simpa using hseq
              subst hseq2
              refine ih fe gcs hsdg hnig hsort.of_cons (Or.inr ⟨s', hs'', ?_⟩)
              intro y hy
              have hyq : y ∈ x :: xs :=
                hsub y (List.mem_cons_of_mem _ hy)
              have hey : e < y := by
                have := (List.pairwise_cons.mp hpw).1 y hy
                simpa using this
              rcases List.mem_cons.mp hyq with rfl | hy'
              · exact absurd (hdx ▸ hey) (lt_irrefl _)
              · exact hy'
        · refine bor_iff.mpr (Or.inr ?_)
          refine ih false cs hsd hni hsort.of_cons (Or.inr ⟨c.dataN :: s', hs, ?_⟩)
          intro y hy
          have hyq : y ∈ x :: xs := hsub y hy
          have hld : c.dataN ≤ y := by
            rcases List.mem_cons.mp hy with rfl | hy'
            · exact le_refl _
            · exact le_of_lt ((List.pairwise_cons.mp hpw).1 y hy')
          have hxd : x ≤ c.dataN := by
            rcases List.mem_cons.mp hdq with h' | h'
            · exact absurd h' hdx
            · exact List.rel_of_sorted_cons hsort _ h'
          rcases List.mem_cons.mp hyq with rfl | hy'
          · exact absurd (le_antisymm hld hxd) hdx
          · exact hy'

/-- The subset enumeration is exactly the pre-order list of stored sets
filtered by the subset condition: `_itersubsets` descends only into
children whose label is in the query. -/
theorem subL_filter :
    (∀ n : Node α ν, ∀ q p : List α, n.dataN ∈ q →
      subN termKeys n q p =
        ((setsN n).filter (fun s => subOf s q)).map (fun s => p ++ s)) ∧
    (∀ cs : List (Node α ν), ∀ q p : List α,
      subL termKeys cs q p =
        ((setsL cs).filter (fun s => subOf s q)).map (fun s => p ++ s)) := by
  refine nodeBothInd ?_ ?_ ?_
  · intro d f v cs hQ q p hdq
    simp only [dataN_mk] at hdq
    rw [subN, hQ q (p ++ [d]), setsN_mk, List.filter_map]
    have hcongr : List.filter ((fun s => subOf s q) ∘ (fun s => d :: s))
          ((if f then [[]] else []) ++ setsL cs) =
        List.filter (fun s => subOf s q) ((if f then [[]] else []) ++ setsL cs) := by
      apply List.filter_congr
      intro s₀ _
      show subOf (d :: s₀) q = subOf s₀ q
      simp [subOf, hdq]
    rw [hcongr, List.filter_append]
    have hif : List.filter (fun s => subOf s q) (if f then [[]] else []) =
        (if f then [[]] else []) := by
      cases f <;> simp [subOf]
    rw [hif, List.map_map, List.map_append]
    congr 1
    · cases f <;> simp [termKeys, Function.comp]
    · refine List.map_congr_left ?_
      intro s _
      simp
  · intro q p
    rw [subL, setsL_nil]
    simp
  · intro c cs hc hcs q p
    rw [subL, setsL_cons, List.filter_append, List.map_append]
    by_cases hdq : c.dataN ∈ q
    · rw [if_pos hdq, hc q p hdq, hcs q p]
    · rw [if_neg hdq]
      have hnil : (setsN c).filter (fun s => subOf s q) = [] := by
        apply List.filter_eq_nil_iff.mpr
        intro s hs hcon
        obtain ⟨s', rfl⟩ := setsN_shape hs
        exact hdq (subOf_iff.mp hcon _ (List.mem_cons_self _ _))
      rw [hnil, hcs q p]
      simp

theorem sortedData_nil : sortedData ([] : List (Node α ν)) = true := by
  rw [sortedData]

theorem nodesInv_nil : nodesInv ([] : List (Node α ν)) = true := by
  rw [nodesInv]

theorem ltAll_nil {d : α} : ltAll d ([] : List (Node α ν)) = true := rfl

theorem ltAll_intro {d : α} {cs : List (Node α ν)}
    (h : ∀ c ∈ cs, d < c.dataN) : ltAll d cs = true :=
  List.all_eq_true.mpr (fun c hc => decide_eq_true (h c hc))

theorem addN_data (nu0 : ν) (fin : ν → ν) (n : Node α ν) (l : List α) :
    (addN nu0 fin n l).dataN = n.dataN := by
  cases n with
  | mk d f v cs =>
    cases l with
    | nil =>
      rw [addN]
      simp
    | cons x xs =>
      rw [addN]
      simp

theorem addL_ne_nil (nu0 : ν) (fin : ν → ν) (cs : List (Node α ν)) (x : α)
    (xs : List α) : addL nu0 fin cs x xs ≠ [] := by
  cases cs with
  | nil =>
    rw [addL]
    simp
  | cons c cs =>
    rw [addL]
    by_cases h1 : c.dataN = x
    · rw [if_pos h1]
      simp
    · rw [if_neg h1]
      by_cases h2 : x < c.dataN
      · rw [if_pos h2]
        simp
      · rw [if_neg h2]
        simp

/-- A freshly inserted chain of nodes satisfies the invariant: every node
on it but the last has exactly one child, the last is terminal, labels
strictly increase. -/
theorem addN_fresh_inv (nu0 : ν) (fin : ν → ν) :
    ∀ xs : List α, ∀ x : α, (x :: xs).Pairwise (· < ·) →
      nodeInv (addN nu0 fin (.mk x false nu0 []) xs) = true := by
  intro xs
  induction xs with
  | nil =>
    intro x _
    rw [addN, nodeInv_mk]
    simp [ltAll_nil, sortedData_nil, nodesInv_nil]
  | cons y ys ih =>
    intro x hpw
    rw [addN, addL, nodeInv_mk]
    have hin : nodeInv (addN nu0 fin (.mk y false nu0 []) ys) = true :=
      ih y (List.pairwise_cons.mp hpw).2
    have hd : (addN nu0 fin (.mk y false nu0 ([] : List (Node α ν))) ys).dataN = y := by
      rw [addN_data]
      simp
    have hxy : x < y := (List.pairwise_cons.mp hpw).1 y (List.mem_cons_self _ _)
    rw [sortedData_cons, nodesInv_cons, hd]
    simp [ltAll_nil, sortedData_nil, nodesInv_nil, hin,
      ltAll_intro (show ∀ c ∈ [addN nu0 fin (.mk y false nu0 []) ys], x < c.dataN by
        intro c hc
        simp only [List.mem_singleton] at hc
        subst hc
        rw [hd]
        exact hxy)]

/-- One element step of invariant preservation for `addL`, parameterised by
the induction hypothesis for the remaining path.  Also records that the new
sibling labels are the old ones plus possibly the inserted element. -/
theorem addL_inv_step (nu0 : ν) (fin : ν → ν) (l : List α)
    (hNL : ∀ n : Node α ν, nodeInv n = true → (∀ y ∈ l, n.dataN < y) →
      nodeInv (addN nu0 fin n l) = true) :
    ∀ x : α, (x :: l).Pairwise (· < ·) → ∀ cs : List (Node α ν),
      sortedData cs = true → nodesInv cs = true →
      sortedData (addL nu0 fin cs x l) = true ∧
      nodesInv (addL nu0 fin cs x l) = true ∧
      (∀ c' ∈ addL nu0 fin cs x l, c'.dataN = x ∨ ∃ c ∈ cs, c'.dataN = c.dataN) := by
  intro x hpw cs
  induction cs with
  | nil =>
    intro _ _
    rw [addL]
    have hfr : nodeInv (addN nu0 fin (Node.mk x false nu0 []) l) = true :=
      addN_fresh_inv nu0 fin l x hpw
    refine ⟨?_, ?_, ?_⟩
    · rw [sortedData_cons]
      exact band_iff.mpr ⟨ltAll_nil, sortedData_nil⟩
    · rw [nodesInv_cons]
      exact band_iff.mpr ⟨hfr, nodesInv_nil⟩
    · intro c' hc'
      simp only [List.mem_singleton] at hc'
      subst hc'
      left
      rw [addN_data]
      simp
  | cons c cs ihc =>
    intro hsd hni
    obtain ⟨hltA, hsd'⟩ := sortedData_parts hsd
    obtain ⟨hcinv, hni'⟩ := nodesInv_parts hni
    rw [addL]
    by_cases h1 : c.dataN = x
    · rw [if_pos h1]
      have hmod : nodeInv (addN nu0 fin c l) = true := by
        apply hNL c hcinv
        intro y hy
        rw [h1]
        exact (List.pairwise_cons.mp hpw).1 y hy
      refine ⟨?_, ?_, ?_⟩
      · rw [sortedData_cons, addN_data]
        exact band_iff.mpr ⟨hltA, hsd'⟩
      · rw [nodesInv_cons]
        exact band_iff.mpr ⟨hmod, hni'⟩
      · intro c' hc'
        rcases List.mem_cons.mp hc' with rfl | hmem
        · left
          rw [addN_data, h1]
        · exact Or.inr ⟨c', List.mem_cons_of_mem _ hmem, rfl⟩
    · rw [if_neg h1]
      by_cases h2 : x < c.dataN
      · rw [if_pos h2]
        have hfr : nodeInv (addN nu0 fin (Node.mk x false nu0 []) l) = true :=
          addN_fresh_inv nu0 fin l x hpw
        refine ⟨?_, ?_, ?_⟩
        · rw [sortedData_cons, addN_data]
          refine band_iff.mpr ⟨?_, hsd⟩
          refine ltAll_intro ?_
          intro c'' hc''
          rcases List.mem_cons.mp hc'' with rfl | hmem
          · simpa using h2
          · exact lt_trans h2 (ltAll_mem hltA hmem)
        · rw [nodesInv_cons]
          exact band_iff.mpr ⟨hfr, hni⟩
        · intro c' hc'
          rcases List.mem_cons.mp hc' with rfl | hmem
          · left
            rw [addN_data]
            simp
          · exact Or.inr ⟨c', hmem, rfl⟩
      · rw [if_neg h2]
        obtain ⟨hsd2, hni2, hdat2⟩ := ihc hsd' hni'
        refine ⟨?_, ?_, ?_⟩
        · rw [sortedData_cons]
          refine band_iff.mpr ⟨?_, hsd2⟩
          refine ltAll_intro ?_
          intro c'' hc''
          rcases hdat2 c'' hc'' with heq | ⟨c₀, hc₀, heq⟩
          · rw [heq]
            rcases lt_trichotomy c.dataN x with h | h | h
            · exact h
            · exact absurd h h1
            · exact absurd h h2
          · rw [heq]
            exact ltAll_mem hltA hc₀
        · rw [nodesInv_cons]
          exact band_iff.mpr ⟨hcinv, hni2⟩
        · intro c' hc'
          rcases List.mem_cons.mp hc' with rfl | hmem
          · exact Or.inr ⟨c', List.mem_cons_self _ _, rfl⟩
          · rcases hdat2 c' hmem with heq | ⟨c₀, hc₀, heq⟩
            · exact Or.inl heq
            · exact Or.inr ⟨c₀, List.mem_cons_of_mem _ hc₀, heq⟩

/-- Invariant preservation for the shared `_add`/`_assign` recursion, on a
strictly increasing remaining path lying above the node's label. -/
theorem addN_inv (nu0 : ν) (fin : ν → ν) :
    ∀ l : List α, l.Pairwise (· < ·) → ∀ n : Node α ν, nodeInv n = true →
      (∀ y ∈ l, n.dataN < y) → nodeInv (addN nu0 fin n l) = true := by
  intro l
  induction l with
  | nil =>
    intro _ n hn _
    cases n with
    | mk d f v cs =>
      rw [addN, nodeInv_mk]
      obtain ⟨_, hltA, hsd, hni⟩ := nodeInv_parts hn
      simp [hltA, hsd, hni]
  | cons x xs ih =>
    intro hpw n hn hlt
    cases n with
    | mk d f v cs =>
      rw [addN, nodeInv_mk]
      obtain ⟨_, hltA, hsd, hni⟩ := nodeInv_parts hn
      have hNL : ∀ n' : Node α ν, nodeInv n' = true → (∀ y ∈ xs, n'.dataN < y) →
          nodeInv (addN nu0 fin n' xs) = true :=
        fun n' hn' hlt' => ih (List.pairwise_cons.mp hpw).2 n' hn' hlt'
      obtain ⟨hsd2, hni2, hdat2⟩ := addL_inv_step nu0 fin xs hNL x hpw cs hsd hni
      have hne := addL_ne_nil nu0 fin cs x xs
      have hlt2 : ltAll d (addL nu0 fin cs x xs) = true := by
        refine ltAll_intro ?_
        intro c' hc'
        rcases hdat2 c' hc' with heq | ⟨c₀, hc₀, heq⟩
        · rw [heq]
          simpa using hlt x (List.mem_cons_self _ _)
        · rw [heq]
          exact ltAll_mem hltA hc₀
      have hemp : (addL nu0 fin cs x xs).isEmpty = false := by
        cases haddl : addL nu0 fin cs x xs with
        | nil => exact absurd haddl hne
        | cons hd tl => rfl
      simp [hlt2, hsd2, hni2, hemp]

/-- A fresh container satisfies the reachable-state invariant. -/
theorem trieInv_empty (nu0 : ν) : trieInv (emptyTrie nu0 : Trie α ν) = true := by
  rw [trieInv, listInv]
  simp [emptyTrie, sortedData_nil, nodesInv_nil]

/-- `add`/`assign` of a duplicate-free iterable preserves the
reachable-state invariant. -/
theorem addT_inv (nu0 : ν) (fin : ν → ν) {t : Trie α ν} (ht : trieInv t = true)
    {l : List α} (hl : l.Nodup) : trieInv (addT nu0 fin t l) = true := by
  have hpw := sortQ_pairwise_lt hl
  rw [trieInv, listInv] at ht
  obtain ⟨hsd, hni⟩ := band_iff.mp ht
  cases hs : sortQ l with
  | nil => simp [addT, hs, trieInv, listInv, hsd, hni]
  | cons x xs =>
    rw [hs] at hpw
    have hNL : ∀ n' : Node α ν, nodeInv n' = true → (∀ y ∈ xs, n'.dataN < y) →
        nodeInv (addN nu0 fin n' xs) = true :=
      fun n' hn' hlt' => addN_inv nu0 fin xs (List.pairwise_cons.mp hpw).2 n' hn' hlt'
    obtain ⟨hsd2, hni2, _⟩ := addL_inv_step nu0 fin xs hNL x hpw t.rootChildren hsd hni
    simp [addT, hs, trieInv, listInv, hsd2, hni2]

/-- `add`/`assign` of a non-empty iterable never touches the root's flag
(or value). -/
theorem addT_rootFlag (nu0 : ν) (fin : ν → ν) (t : Trie α ν) {l : List α}
    (h : l ≠ []) : (addT nu0 fin t l).rootFlag = t.rootFlag := by
  cases hs : sortQ l with
  | nil => exact absurd (sortQ_nil_iff.mp hs) h
  | cons x xs => simp [addT, hs]

/-- Inserting the same sorted path twice is a no-op the second time, as
long as the terminal value action is idempotent (it is the identity for
`SetTrie._add`). -/
theorem add_idem (nu0 : ν) (fin : ν → ν) (hfin : ∀ v, fin (fin v) = fin v) :
    ∀ l : List α,
      (∀ n : Node α ν, addN nu0 fin (addN nu0 fin n l) l = addN nu0 fin n l) ∧
      (∀ x : α, ∀ cs : List (Node α ν),
        addL nu0 fin (addL nu0 fin cs x l) x l = addL nu0 fin cs x l) := by
  intro l
  induction l with
  | nil =>
    have h1 : ∀ n : Node α ν,
        addN nu0 fin (addN nu0 fin n []) [] = addN nu0 fin n [] := by
      intro n
      cases n with
      | mk d f v cs =>
        rw [addN, addN, hfin]
    refine ⟨h1, ?_⟩
    intro x cs
    induction cs with
    | nil =>
      rw [addL]
      have hd : (addN nu0 fin (Node.mk x false nu0 ([] : List (Node α ν))) []).dataN = x := by
        rw [addN_data]
        simp
      rw [addL, if_pos hd, h1]
    | cons c cs ihc =>
      by_cases hcx : c.dataN = x
      · rw [addL, if_pos hcx]
        have hd : (addN nu0 fin c []).dataN = x := by
          rw [addN_data]
          exact hcx
        rw [addL, if_pos hd, h1]
      · by_cases hlt : x < c.dataN
        · rw [addL, if_neg hcx, if_pos hlt]
          have hd : (addN nu0 fin (Node.mk x false nu0 ([] : List (Node α ν))) []).dataN = x := by
            rw [addN_data]
            simp
          rw [addL, if_pos hd, h1]
        · rw [addL, if_neg hcx, if_neg hlt]
          rw [addL, if_neg hcx, if_neg hlt, ihc]
  | cons y ys ih =>
    have h1 : ∀ n : Node α ν,
        addN nu0 fin (addN nu0 fin n (y :: ys)) (y :: ys) = addN nu0 fin n (y :: ys) := by
      intro n
      cases n with
      | mk d f v cs =>
        rw [addN, addN, ih.2 y cs]
    refine ⟨h1, ?_⟩
    intro x cs
    induction cs with
    | nil =>
      rw [addL]
      have hd : (addN nu0 fin (Node.mk x false nu0 ([] : List (Node α ν))) (y :: ys)).dataN = x := by
        rw [addN_data]
        simp
      rw [addL, if_pos hd, h1]
    | cons c cs ihc =>
      by_cases hcx : c.dataN = x
      · rw [addL, if_pos hcx]
        have hd : (addN nu0 fin c (y :: ys)).dataN = x := by
          rw [addN_data]
          exact hcx
        rw [addL, if_pos hd, h1]
      · by_cases hlt : x < c.dataN
        · rw [addL, if_neg hcx, if_pos hlt]
          have hd : (addN nu0 fin (Node.mk x false nu0 ([] : List (Node α ν))) (y :: ys)).dataN = x := by
            rw [addN_data]
            simp
          rw [addL, if_pos hd, h1]
        · rw [addL, if_neg hcx, if_neg hlt]
          rw [addL, if_neg hcx, if_neg hlt, ihc]

/-- Trie-level idempotence of `add`/`assign` with an idempotent value
action. -/
theorem addT_idem (nu0 : ν) (fin : ν → ν) (hfin : ∀ v, fin (fin v) = fin v)
    (t : Trie α ν) (l : List α) :
    addT nu0 fin (addT nu0 fin t l) l = addT nu0 fin t l := by
  cases hs : sortQ l with
  | nil => simp [addT, hs, hfin]
  | cons x xs => simp [addT, hs, (add_idem nu0 fin hfin (xs : List α)).2 x]

/-- When one terminal action is the image of another under `g`, the full
iteration commutes with mapping `g` (the traversal is shared; only
`_terminate` differs between modes). -/
theorem iter_map_term (term : ν → List α → List ω) (g : ω → ω')
    (term2 : ν → List α → List ω')
    (hterm : ∀ v p, term2 v p = (term v p).map g) :
    (∀ n : Node α ν, ∀ p, iterN term2 n p = (iterN term n p).map g) ∧
    (∀ cs : List (Node α ν), ∀ p, iterL term2 cs p = (iterL term cs p).map g) := by
  refine nodeBothInd ?_ ?_ ?_
  · intro d f v cs hQ p
    rw [iterN, iterN, hQ, List.map_append]
    congr 1
    cases f <;> simp [hterm]
  · intro p
    rw [iterL, iterL]
    simp
  · intro c cs hc hcs p
    rw [iterL, iterL, hc, hcs, List.map_append]

/-- Same commutation for the superset enumeration. -/
theorem sup_map_term (term : ν → List α → List ω) (g : ω → ω')
    (term2 : ν → List α → List ω')
    (hterm : ∀ v p, term2 v p = (term v p).map g) :
    (∀ n : Node α ν, ∀ q p, supN term2 n q p = (supN term n q p).map g) ∧
    (∀ cs : List (Node α ν), ∀ x xs p,
      supL term2 cs x xs p = (supL term cs x xs p).map g) := by
  refine nodeBothInd ?_ ?_ ?_
  · intro d f v cs hQ q p
    cases q with
    | nil =>
      rw [supN, supN, (iter_map_term term g term2 hterm).2, List.map_append]
      congr 1
      cases f <;> simp [hterm]
    | cons x xs =>
      rw [supN, supN]
      exact hQ x xs (p ++ [d])
  · intro x xs p
    rw [supL, supL]
    simp
  · intro c cs hc hcs x xs p
    rw [supL, supL]
    by_cases h1 : c.dataN < x
    · rw [if_pos h1, if_pos h1, hc, hcs, List.map_append]
    · rw [if_neg h1, if_neg h1]
      by_cases h2 : c.dataN = x
      · rw [if_pos h2, if_pos h2, hc, hcs, List.map_append]
      · rw [if_neg h2, if_neg h2]
        simp

/-- Same commutation for the subset enumeration. -/
theorem sub_map_term (term : ν → List α → List ω) (g : ω → ω')
    (term2 : ν → List α → List ω')
    (hterm : ∀ v p, term2 v p = (term v p).map g) :
    (∀ n : Node α ν, ∀ q p, subN term2 n q p = (subN term n q p).map g) ∧
    (∀ cs : List (Node α ν), ∀ q p,
      subL term2 cs q p = (subL term cs q p).map g) := by
  refine nodeBothInd ?_ ?_ ?_
  · intro d f v cs hQ q p
    rw [subN, subN, hQ, List.map_append]
    congr 1
    cases f <;> simp [hterm]
  · intro q p
    rw [subL, subL]
    simp
  · intro c cs hc hcs q p
    rw [subL, subL]
    by_cases h1 : c.dataN ∈ q
    · rw [if_pos h1, if_pos h1, hc, hcs, List.map_append]
    · rw [if_neg h1, if_neg h1, hcs]
      simp

theorem iterT_map_term (term : ν → List α → List ω) (g : ω → ω')
    (term2 : ν → List α → List ω')
    (hterm : ∀ v p, term2 v p = (term v p).map g) (t : Trie α ν) :
    iterT term2 t = (iterT term t).map g := by
  rw [iterT, iterT, (iter_map_term term g term2 hterm).2, List.map_append]
  congr 1
  cases h : t.rootFlag <;> simp [hterm]

theorem supersetsT_map_term (term : ν → List α → List ω) (g : ω → ω')
    (term2 : ν → List α → List ω')
    (hterm : ∀ v p, term2 v p = (term v p).map g) (t : Trie α ν) (aset : List α) :
    supersetsT term2 t aset = (supersetsT term t aset).map g := by
  rw [supersetsT, supersetsT]
  cases hs : sortQ aset with
  | nil =>
    rw [(iter_map_term term g term2 hterm).2, List.map_append]
    cases h : t.rootFlag <;> simp [hterm]
  | cons x xs => exact (sup_map_term term g term2 hterm).2 t.rootChildren x xs []

theorem subsetsT_map_term (term : ν → List α → List ω) (g : ω → ω')
    (term2 : ν → List α → List ω')
    (hterm : ∀ v p, term2 v p = (term v p).map g) (t : Trie α ν) (aset : List α) :
    subsetsT term2 t aset = (subsetsT term t aset).map g := by
  rw [subsetsT, subsetsT, (sub_map_term term g term2 hterm).2, List.map_append]
  congr 1
  cases h : t.rootFlag <;> simp [hterm]

theorem skelN_mk {d : α} {f : Bool} {v : ν} {cs : List (Node α ν)} :
    skelN (.mk d f v cs) = .mk d f () (skelL cs) := by
  rw [skelN]

theorem skelL_nil : skelL ([] : List (Node α ν)) = [] := by
  rw [skelL]

theorem skelL_cons {c : Node α ν} {cs : List (Node α ν)} :
    skelL (c :: cs) = skelN c :: skelL cs := by
  rw [skelL]

theorem skelN_data (n : Node α ν) : (skelN n).dataN = n.dataN := by
  cases n with
  | mk d f v cs =>
    rw [skelN_mk]
    simp

/-- The stored sets are determined by the container's shape. -/
theorem sets_skel :
    (∀ n : Node α ν, setsN (skelN n) = setsN n) ∧
    (∀ cs : List (Node α ν), setsL (skelL cs) = setsL cs) := by
  refine nodeBothInd ?_ ?_ ?_
  · intro d f v cs hQ
    rw [skelN_mk, setsN_mk, setsN_mk, hQ]
  · rw [skelL_nil, setsL_nil, setsL_nil]
  · intro c cs hc hcs
    rw [skelL_cons, setsL_cons, setsL_cons, hc, hcs]

/-- Key-mode iteration is determined by the container's shape. -/
theorem iter_skel :
    (∀ n : Node α ν, ∀ p : List α,
      iterN termKeys (skelN n) p = iterN termKeys n p) ∧
    (∀ cs : List (Node α ν), ∀ p : List α,
      iterL termKeys (skelL cs) p = iterL termKeys cs p) := by
  refine nodeBothInd ?_ ?_ ?_
  · intro d f v cs hQ p
    rw [skelN_mk, iterN, iterN, hQ]
    cases f <;> simp [termKeys]
  · intro p
    rw [skelL_nil, iterL, iterL]
  · intro c cs hc hcs p
    rw [skelL_cons, iterL, iterL, hc, hcs]

/-- Key-mode superset enumeration is determined by the shape. -/
theorem sup_skel :
    (∀ n : Node α ν, ∀ q p : List α,
      supN termKeys (skelN n) q p = supN termKeys n q p) ∧
    (∀ cs : List (Node α ν), ∀ x : α, ∀ xs p : List α,
      supL termKeys (skelL cs) x xs p = supL termKeys cs x xs p) := by
  refine nodeBothInd ?_ ?_ ?_
  · intro d f v cs hQ q p
    cases q with
    | nil =>
      rw [skelN_mk, supN, supN, iter_skel.2]
      cases f <;> simp [termKeys]
    | cons x xs =>
      rw [skelN_mk, supN, supN]
      exact hQ x xs (p ++ [d])
  · intro x xs p
    rw [skelL_nil, supL, supL]
  · intro c cs hc hcs x xs p
    rw [skelL_cons, supL, supL, skelN_data]
    simp only [hc, hcs]

/-- Key-mode subset enumeration is determined by the shape. -/
theorem sub_skel :
    (∀ n : Node α ν, ∀ q p : List α,
      subN termKeys (skelN n) q p = subN termKeys n q p) ∧
    (∀ cs : List (Node α ν), ∀ q p : List α,
      subL termKeys (skelL cs) q p = subL termKeys cs q p) := by
  refine nodeBothInd ?_ ?_ ?_
  · intro d f v cs hQ q p
    rw [skelN_mk, subN, subN, hQ]
    cases f <;> simp [termKeys]
  · intro q p
    rw [skelL_nil, subL, subL]
  · intro c cs hc hcs q p
    rw [skelL_cons, subL, subL, skelN_data]
    simp only [hc, hcs]

theorem containsFind_cons {c : Node α ν} {cs : List (Node α ν)} {x : α}
    {xs : List α} :
    containsFind (c :: cs) x xs =
      if c.dataN = x then containsC c.flagN c.childrenN xs
      else containsFind cs x xs := by
  cases c with
  | mk d f v gcs =>
    rw [containsFind]
    simp

theorem getFind_cons {dflt : Option β} {c : Node α (Option β)}
    {cs : List (Node α (Option β))} {x : α} {xs : List α} :
    getFind dflt (c :: cs) x xs =
      if c.dataN = x then getC dflt c.flagN c.valueN c.childrenN xs
      else getFind dflt cs x xs := by
  cases c with
  | mk d f v gcs =>
    rw [getFind]
    simp

theorem containsFind_none {x : α} {xs : List α} :
    ∀ {cs : List (Node α ν)}, (∀ c ∈ cs, x < c.dataN) →
      containsFind cs x xs = false := by
  intro cs
  induction cs with
  | nil =>
    intro _
    rw [containsFind]
  | cons c cs ih =>
    intro h
    rw [containsFind_cons, if_neg (ne_of_gt (h c (List.mem_cons_self _ _)))]
    exact ih (fun c' hc' => h c' (List.mem_cons_of_mem _ hc'))

theorem getFind_none {dflt : Option β} {x : α} {xs : List α} :
    ∀ {cs : List (Node α (Option β))}, (∀ c ∈ cs, x < c.dataN) →
      getFind dflt cs x xs = dflt := by
  intro cs
  induction cs with
  | nil =>
    intro _
    rw [getFind]
  | cons c cs ih =>
    intro h
    rw [getFind_cons, if_neg (ne_of_gt (h c (List.mem_cons_self _ _)))]
    exact ih (fun c' hc' => h c' (List.mem_cons_of_mem _ hc'))

/-- After assigning `v` along a path, getting that same path returns `v`. -/
theorem get_assign (v dflt : Option β) :
    ∀ l : List α,
      (∀ n : Node α (Option β),
        getNode dflt (addN none (fun _ => v) n l) l = v) ∧
      (∀ x : α, ∀ cs : List (Node α (Option β)),
        getFind dflt (addL none (fun _ => v) cs x l) x l = v) := by
  intro l
  induction l with
  | nil =>
    have h1 : ∀ n : Node α (Option β),
        getNode dflt (addN none (fun _ => v) n []) [] = v := by
      intro n
      cases n with
      | mk d f v0 cs =>
        rw [addN, getNode]
        simp only [flagN_mk, valueN_mk, childrenN_mk]
        rw [getC]
        simp
    refine ⟨h1, ?_⟩
    intro x cs
    induction cs with
    | nil =>
      rw [addL, getFind_cons]
      have hd : (addN none (fun _ => v)
          (Node.mk x false none ([] : List (Node α (Option β)))) []).dataN = x := by
        rw [addN_data]
        simp
      rw [if_pos hd]
      have h2 := h1 (Node.mk x false none [])
      rw [getNode] at h2
      exact h2
    | cons c cs ihc =>
      by_cases hcx : c.dataN = x
      · rw [addL, if_pos hcx, getFind_cons]
        have hd : (addN none (fun _ => v) c []).dataN = x := by
          rw [addN_data]
          exact hcx
        rw [if_pos hd]
        have h2 := h1 c
        rw [getNode] at h2
        exact h2
      · by_cases hlt : x < c.dataN
        · rw [addL, if_neg hcx, if_pos hlt, getFind_cons]
          have hd : (addN none (fun _ => v)
              (Node.mk x false none ([] : List (Node α (Option β)))) []).dataN = x := by
            rw [addN_data]
            simp
          rw [if_pos hd]
          have h2 := h1 (Node.mk x false none [])
          rw [getNode] at h2
          exact h2
        · rw [addL, if_neg hcx, if_neg hlt, getFind_cons, if_neg hcx]
          exact ihc
  | cons z zs ih =>
    have h1 : ∀ n : Node α (Option β),
        getNode dflt (addN none (fun _ => v) n (z :: zs)) (z :: zs) = v := by
      intro n
      cases n with
      | mk d f v0 cs =>
        rw [addN, getNode]
        simp only [flagN_mk, valueN_mk, childrenN_mk]
        rw [getC]
        exact ih.2 z cs
    refine ⟨h1, ?_⟩
    intro x cs
    induction cs with
    | nil =>
      rw [addL, getFind_cons]
      have hd : (addN none (fun _ => v)
          (Node.mk x false none ([] : List (Node α (Option β)))) (z :: zs)).dataN = x := by
        rw [addN_data]
        simp
      rw [if_pos hd]
      have h2 := h1 (Node.mk x false none [])
      rw [getNode] at h2
      exact h2
    | cons c cs ihc =>
      by_cases hcx : c.dataN = x
      · rw [addL, if_pos hcx, getFind_cons]
        have hd : (addN none (fun _ => v) c (z :: zs)).dataN = x := by
          rw [addN_data]
          exact hcx
        rw [if_pos hd]
        have h2 := h1 c
        rw [getNode] at h2
        exact h2
      · by_cases hlt : x < c.dataN
        · rw [addL, if_neg hcx, if_pos hlt, getFind_cons]
          have hd : (addN none (fun _ => v)
              (Node.mk x false none ([] : List (Node α (Option β)))) (z :: zs)).dataN = x := by
            rw [addN_data]
            simp
          rw [if_pos hd]
          have h2 := h1 (Node.mk x false none [])
          rw [getNode] at h2
          exact h2
        · rw [addL, if_neg hcx, if_neg hlt, getFind_cons, if_neg hcx]
          exact ihc

/-- Getting anything but the inserted path out of a freshly created chain
returns the default. -/
theorem fresh_get (v dflt : Option β) :
    ∀ xs : List α, ∀ x : α, ∀ ys : List α, ys ≠ xs →
      getNode dflt (addN none (fun _ => v) (Node.mk x false none []) xs) ys = dflt := by
  intro xs
  induction xs with
  | nil =>
    intro x ys hne
    cases ys with
    | nil => exact absurd rfl hne
    | cons w ws =>
      rw [addN, getNode]
      simp only [flagN_mk, valueN_mk, childrenN_mk]
      rw [getC, getFind]
  | cons z zs ih =>
    intro x ys hne
    rw [addN, addL, getNode]
    simp only [flagN_mk, valueN_mk, childrenN_mk]
    cases ys with
    | nil =>
      rw [getC]
      simp
    | cons w ws =>
      rw [getC, getFind_cons]
      by_cases hzw : (addN none (fun _ => v)
          (Node.mk z false none ([] : List (Node α (Option β)))) zs).dataN = w
      · rw [if_pos hzw]
        have hzw2 : z = w := by
          rw [addN_data] at hzw
          simpa using hzw
        have hws : ws ≠ zs := by
          intro hh
          apply hne
          rw [← hzw2, hh]
        have h2 := ih z ws hws
        rw [getNode] at h2
        exact h2
      · rw [if_neg hzw, getFind]

/-- Assigning along `x :: l` leaves the lookup of any other key `y :: ys`
unchanged, one sibling level at a time (needs sorted unique siblings so
that the walk of `_assign` and the walk of `_get` agree on which child
carries which label). -/
theorem get_other_step (v dflt : Option β) (l : List α)
    (hN : ∀ l' : List α, l ≠ l' → ∀ n : Node α (Option β), nodeInv n = true →
      getNode dflt (addN none (fun _ => v) n l) l' = getNode dflt n l') :
    ∀ x y : α, ∀ ys : List α, (x :: l) ≠ (y :: ys) →
    ∀ cs : List (Node α (Option β)), sortedData cs = true → nodesInv cs = true →
      getFind dflt (addL none (fun _ => v) cs x l) y ys = getFind dflt cs y ys := by
  intro x y ys hne cs
  induction cs with
  | nil =>
    intro _ _
    rw [addL, getFind_cons]
    by_cases hxy : (addN none (fun _ => v)
        (Node.mk x false none ([] : List (Node α (Option β)))) l).dataN = y
    · rw [if_pos hxy]
      have hxy2 : x = y := by
        rw [addN_data] at hxy
        simpa using hxy
      have hys : ys ≠ l := by
        intro hh
        apply hne
        rw [hxy2, hh]
      have h2 := fresh_get v dflt l x ys hys
      rw [getNode] at h2
      rw [h2, getFind]
    · rw [if_neg hxy, getFind]
  | cons c cs ihc =>
    intro hsd hni
    obtain ⟨hlt, hsd'⟩ := sortedData_parts hsd
    obtain ⟨hcinv, hni'⟩ := nodesInv_parts hni
    by_cases hcx : c.dataN = x
    · rw [addL, if_pos hcx, getFind_cons, getFind_cons, addN_data]
      by_cases hcy : c.dataN = y
      · rw [if_pos hcy, if_pos hcy]
        have hly : l ≠ ys := by
          intro hh
          apply hne
          rw [hcx.symm.trans hcy, hh]
        have h2 := hN ys hly c hcinv
        rw [getNode, getNode] at h2
        exact h2
      · rw [if_neg hcy, if_neg hcy]
    · by_cases hlt2 : x < c.dataN
      · rw [addL, if_neg hcx, if_pos hlt2, getFind_cons]
        by_cases hfy : (addN none (fun _ => v)
            (Node.mk x false none ([] : List (Node α (Option β)))) l).dataN = y
        · rw [if_pos hfy]
          have hxy2 : x = y := by
            rw [addN_data] at hfy
            simpa using hfy
          have hys : ys ≠ l := by
            intro hh
            apply hne
            rw [hxy2, hh]
          have h2 := fresh_get v dflt l x ys hys
          rw [getNode] at h2
          rw [h2]
          have hnone : getFind dflt (c :: cs) y ys = dflt := by
            refine getFind_none ?_
            intro c' hc'
            rcases List.mem_cons.mp hc' with rfl | hmem
            · rw [← hxy2]
              exact hlt2
            · rw [← hxy2]
              exact lt_trans hlt2 (ltAll_mem hlt hmem)
          rw [hnone]
        · rw [if_neg hfy]
      · rw [addL, if_neg hcx, if_neg hlt2, getFind_cons, getFind_cons]
        by_cases hcy : c.dataN = y
        · rw [if_pos hcy, if_pos hcy]
        · rw [if_neg hcy, if_neg hcy]
          exact ihc hsd' hni'

/-- Assigning to a key leaves every other key's lookup unchanged. -/
theorem get_other (v dflt : Option β) :
    ∀ l l' : List α, l ≠ l' → ∀ n : Node α (Option β), nodeInv n = true →
      getNode dflt (addN none (fun _ => v) n l) l' = getNode dflt n l' := by
  intro l
  induction l with
  | nil =>
    intro l' hne n _
    cases n with
    | mk d f v0 cs =>
      rw [addN, getNode, getNode]
      simp only [flagN_mk, valueN_mk, childrenN_mk]
      cases l' with
      | nil => exact absurd rfl hne
      | cons w ws => rw [getC, getC]
  | cons z zs ih =>
    intro l' hne n hn
    cases n with
    | mk d f v0 cs =>
      obtain ⟨_, _, hsd, hni⟩ := nodeInv_parts hn
      rw [addN, getNode, getNode]
      simp only [flagN_mk, valueN_mk, childrenN_mk]
      cases l' with
      | nil => rw [getC, getC]
      | cons w ws =>
        rw [getC, getC]
        exact get_other_step v dflt zs ih z w ws hne cs hsd hni

/-- Assigning along an already stored key does not change the container's
shape (the walk finds every node already present and only the final value
is overwritten). -/
theorem assign_skel_step (nu0 : ν) (fin : ν → ν) (l : List α)
    (hN : ∀ n : Node α ν, nodeInv n = true →
      containsC n.flagN n.childrenN l = true → skelN (addN nu0 fin n l) = skelN n) :
    ∀ x : α, ∀ cs : List (Node α ν), sortedData cs = true → nodesInv cs = true →
      containsFind cs x l = true → skelL (addL nu0 fin cs x l) = skelL cs := by
  intro x cs
  induction cs with
  | nil =>
    intro _ _ hcont
    rw [containsFind] at hcont
    exact absurd hcont (by simp)
  | cons c cs ihc =>
    intro hsd hni hcont
    obtain ⟨hlt, hsd'⟩ := sortedData_parts hsd
    obtain ⟨hcinv, hni'⟩ := nodesInv_parts hni
    rw [containsFind_cons] at hcont
    by_cases hcx : c.dataN = x
    · rw [if_pos hcx] at hcont
      rw [addL, if_pos hcx, skelL_cons, skelL_cons, hN c hcinv hcont]
    · rw [if_neg hcx] at hcont
      by_cases hlt2 : x < c.dataN
      · exfalso
        have hfalse : containsFind cs x l = false :=
          containsFind_none (fun c' hc' => lt_trans hlt2 (ltAll_mem hlt hc'))
        rw [hfalse] at hcont
        exact Bool.false_ne_true hcont
      · rw [addL, if_neg hcx, if_neg hlt2, skelL_cons, skelL_cons,
          ihc hsd' hni' hcont]

/-- Node-level form of shape preservation under assignment to a stored
key. -/
theorem assign_skel (nu0 : ν) (fin : ν → ν) :
    ∀ l : List α, ∀ n : Node α ν, nodeInv n = true →
      containsC n.flagN n.childrenN l = true →
      skelN (addN nu0 fin n l) = skelN n := by
  intro l
  induction l with
  | nil =>
    intro n hn hcont
    cases n with
    | mk d f v0 cs =>
      simp only [flagN_mk, childrenN_mk] at hcont
      rw [containsC] at hcont
      rw [addN, skelN_mk, skelN_mk, hcont]
  | cons z zs ih =>
    intro n hn hcont
    cases n with
    | mk d f v0 cs =>
      obtain ⟨_, _, hsd, hni⟩ := nodeInv_parts hn
      simp only [flagN_mk, childrenN_mk] at hcont
      rw [containsC] at hcont
      rw [addN, skelN_mk, skelN_mk,
        assign_skel_step nu0 fin zs ih z cs hsd hni hcont]

theorem intgN_mk {pr : ν → Bool} {d : α} {f : Bool} {v : ν}
    {cs : List (Node α ν)} :
    intgN pr (.mk d f v cs) = ((f == pr v) && intgL pr cs) := by
  rw [intgN]

theorem intgL_nil {pr : ν → Bool} : intgL pr ([] : List (Node α ν)) = true := by
  rw [intgL]

theorem intgL_cons {pr : ν → Bool} {c : Node α ν} {cs : List (Node α ν)} :
    intgL pr (c :: cs) = (intgN pr c && intgL pr cs) := by
  rw [intgL]

theorem intg_fresh (pr : ν → Bool) (nu0 : ν) (h0 : pr nu0 = false) (x : α) :
    intgN pr (Node.mk x false nu0 ([] : List (Node α ν))) = true := by
  rw [intgN_mk, h0, intgL_nil]
  simp

/-- Terminal integrity is preserved by `_add`/`_assign` whenever fresh
nodes fail the value predicate (`value = None`) and the terminal action
establishes it. -/
theorem intg_add (nu0 : ν) (fin : ν → ν) (pr : ν → Bool)
    (h0 : pr nu0 = false) (hfin : ∀ v0, pr (fin v0) = true) :
    ∀ l : List α,
      (∀ n : Node α ν, intgN pr n = true → intgN pr (addN nu0 fin n l) = true) ∧
      (∀ x : α, ∀ cs : List (Node α ν), intgL pr cs = true →
        intgL pr (addL nu0 fin cs x l) = true) := by
  intro l
  induction l with
  | nil =>
    have h1 : ∀ n : Node α ν, intgN pr n = true →
        intgN pr (addN nu0 fin n []) = true := by
      intro n hn
      cases n with
      | mk d f v0 cs =>
        rw [intgN_mk] at hn
        obtain ⟨_, hcs⟩ := band_iff.mp hn
        rw [addN, intgN_mk, hfin v0, hcs]
        simp
    refine ⟨h1, ?_⟩
    intro x cs
    induction cs with
    | nil =>
      intro _
      rw [addL, intgL_cons]
      exact band_iff.mpr ⟨h1 _ (intg_fresh pr nu0 h0 x), intgL_nil⟩
    | cons c cs ihc =>
      intro hl
      rw [intgL_cons] at hl
      obtain ⟨hc, hcs⟩ := band_iff.mp hl
      rw [addL]
      by_cases hcx : c.dataN = x
      · rw [if_pos hcx, intgL_cons]
        exact band_iff.mpr ⟨h1 c hc, hcs⟩
      · by_cases hlt : x < c.dataN
        · rw [if_neg hcx, if_pos hlt, intgL_cons]
          refine band_iff.mpr ⟨h1 _ (intg_fresh pr nu0 h0 x), ?_⟩
          rw [intgL_cons]
          exact hl
        · rw [if_neg hcx, if_neg hlt, intgL_cons]
          exact band_iff.mpr ⟨hc, ihc hcs⟩
  | cons z zs ih =>
    have h1 : ∀ n : Node α ν, intgN pr n = true →
        intgN pr (addN nu0 fin n (z :: zs)) = true := by
      intro n hn
      cases n with
      | mk d f v0 cs =>
        rw [intgN_mk] at hn
        obtain ⟨hf, hcs⟩ := band_iff.mp hn
        rw [addN, intgN_mk, hf, ih.2 z cs hcs]
        simp
    refine ⟨h1, ?_⟩
    intro x cs
    induction cs with
    | nil =>
      intro _
      rw [addL, intgL_cons]
      exact band_iff.mpr ⟨h1 _ (intg_fresh pr nu0 h0 x), intgL_nil⟩
    | cons c cs ihc =>
      intro hl
      rw [intgL_cons] at hl
      obtain ⟨hc, hcs⟩ := band_iff.mp hl
      rw [addL]
      by_cases hcx : c.dataN = x
      · rw [if_pos hcx, intgL_cons]
        exact band_iff.mpr ⟨h1 c hc, hcs⟩
      · by_cases hlt : x < c.dataN
        · rw [if_neg hcx, if_pos hlt, intgL_cons]
          refine band_iff.mpr ⟨h1 _ (intg_fresh pr nu0 h0 x), ?_⟩
          rw [intgL_cons]
          exact hl
        · rw [if_neg hcx, if_neg hlt, intgL_cons]
          exact band_iff.mpr ⟨hc, ihc hcs⟩

/-- Terminal integrity at the whole container level. -/
theorem intg_addT (nu0 : ν) (fin : ν → ν) (pr : ν → Bool)
    (h0 : pr nu0 = false) (hfin : ∀ v0, pr (fin v0) = true)
    {t : Trie α ν} (ht : intgT pr t = true) (l : List α) :
    intgT pr (addT nu0 fin t l) = true := by
  rw [intgT] at ht
  obtain ⟨hroot, hch⟩ := band_iff.mp ht
  cases hs : sortQ l with
  | nil =>
    have h2 : (true == pr (fin t.rootValue)) = true := by
      rw [hfin]
      simp
    simp [addT, hs, intgT, h2, hch]
  | cons x xs =>
    have h2 := (intg_add nu0 fin pr h0 hfin xs).2 x t.rootChildren hch
    simp [addT, hs, intgT, hroot, h2]

/-- A sorted list that is not duplicate-free has two equal adjacent
elements. -/
theorem hasAdjDup_of_sorted_not_nodup :
    ∀ l : List α, List.Sorted (· ≤ ·) l → ¬ l.Nodup → hasAdjDup l = true := by
  intro l
  induction l with
  | nil =>
    intro _ h
    exact absurd List.nodup_nil h
  | cons x xs ih =>
    intro hs hnd
    by_cases hx : x ∈ xs
    · cases xs with
      | nil => simp at hx
      | cons y ys =>
        have hxy : x ≤ y := List.rel_of_sorted_cons hs y (List.mem_cons_self _ _)
        rw [hasAdjDup]
        rcases List.mem_cons.mp hx with heq | hmem
        · simp [heq]
        · have hyx : y ≤ x := List.rel_of_sorted_cons hs.of_cons x hmem
          simp [le_antisymm hxy hyx]
    · have hnd' : ¬ xs.Nodup := by
        intro hh
        exact hnd (List.nodup_cons.mpr ⟨hx, hh⟩)
      have h2 := ih hs.of_cons hnd'
      cases xs with
      | nil => simp [List.nodup_nil] at hnd'
      | cons y ys =>
        rw [hasAdjDup]
        simp [h2]

/-- The superset scan fails immediately when every sibling label is above
the current query element. -/
theorem hassupL_head_big {cs : List (Node α ν)} {y : α} {ys : List α}
    (h : ∀ c ∈ cs, y < c.dataN) : hassupL cs (y :: ys) = false := by
  cases cs with
  | nil => rw [hassupL]
  | cons c cs =>
    cases c with
    | mk e fe ve gcs =>
      have hye : y < e := by
        simpa using h (Node.mk e fe ve gcs) (List.mem_cons_self _ _)
      rw [hassupL, if_pos hye]

/-- On a trie with strictly increasing paths, a sorted query with a
repeated element can never be fully matched: after the first copy is
consumed, every deeper label is strictly larger. -/
theorem hassupL_adjdup :
    (∀ n : Node α ν, nodeInv n = true → ∀ q : List α, List.Sorted (· ≤ ·) q →
      hasAdjDup q = true → hassupL n.childrenN q = false) ∧
    (∀ cs : List (Node α ν), sortedData cs = true → nodesInv cs = true →
      ∀ q : List α, List.Sorted (· ≤ ·) q → hasAdjDup q = true →
      hassupL cs q = false) := by
  refine nodeBothInd ?_ ?_ ?_
  · intro d f v cs hQ hinv q hs hd
    obtain ⟨_, _, hsd, hni⟩ := nodeInv_parts hinv
    exact hQ hsd hni q hs hd
  · intro _ _ q _ hd
    cases q with
    | nil =>
      rw [hasAdjDup] at hd
      exact absurd hd (by simp)
    | cons x xs => rw [hassupL]
  · intro c cs hc hcs hsd hni q hs hd
    obtain ⟨hlt, hsd'⟩ := sortedData_parts hsd
    obtain ⟨hcinv, hni'⟩ := nodesInv_parts hni
    cases q with
    | nil =>
      rw [hasAdjDup] at hd
      exact absurd hd (by simp)
    | cons x xs =>
      cases c with
      | mk e fe ve gcs =>
        obtain ⟨_, hlte, hsdg, hnig⟩ := nodeInv_parts hcinv
        rw [hassupL]
        by_cases h1 : x < e
        · rw [if_pos h1]
        · rw [if_neg h1]
          have hright : hassupL cs (x :: xs) = false := hcs hsd' hni' _ hs hd
          by_cases h2 : e = x
          · rw [if_pos h2]
            have hleft : hassupL gcs xs = false := by
              cases xs with
              | nil =>
                rw [hasAdjDup] at hd
                exact absurd hd (by simp)
              | cons w ws =>
                rw [hasAdjDup] at hd
                rcases bor_iff.mp hd with hdup | hdup
                · have hxw : x = w := of_decide_eq_true hdup
                  apply hassupL_head_big
                  intro c' hc'
                  have he' := ltAll_mem hlte hc'
                  simp only [dataN_mk] at he'
                  rw [← hxw, ← h2]
                  exact he'
                · exact hc hcinv (w :: ws) hs.of_cons hdup
            rw [hleft, hright]
            rfl
          · rw [if_neg h2]
            have hleft : hassupL gcs (x :: xs) = false := hc hcinv (x :: xs) hs hd
            rw [hleft, hright]
            rfl

theorem nodeCount_mk {d : α} {f : Bool} {v : ν} {cs : List (Node α ν)} :
    nodeCount (.mk d f v cs) = 1 + nodeCountL cs := by
  rw [nodeCount]

theorem nodeCountL_nil : nodeCountL ([] : List (Node α ν)) = 0 := by
  rw [nodeCountL]

theorem nodeCountL_cons {c : Node α ν} {cs : List (Node α ν)} :
    nodeCountL (c :: cs) = nodeCount c + nodeCountL cs := by
  rw [nodeCountL]

/-- Pretty-print writes exactly one line per node. -/
theorem print_length (strF reprF : α → String) (tabchr : Char) (tabsize : Nat) :
    (∀ n : Node α ν, ∀ level,
      (printN strF reprF tabchr tabsize n level).length = nodeCount n) ∧
    (∀ cs : List (Node α ν), ∀ level,
      (printL strF reprF tabchr tabsize cs level).length = nodeCountL cs) := by
  refine nodeBothInd ?_ ?_ ?_
  · intro d f v cs hQ level
    rw [printN, nodeCount]
    simp [hQ]
    omega
  · intro level
    rw [printL, nodeCountL]
    rfl
  · intro c cs hc hcs level
    rw [printL, nodeCountL]
    simp [hc, hcs]

/-- The first line `_printtree` emits for a node at a given level: the
`str` form of its label behind `level * tabsize` plus the surplus of the
`repr` form over the `str` form copies of the padding character, then the
terminal marker. -/
theorem printN_head (strF reprF : α → String) (tabchr : Char) (tabsize : Nat)
    (n : Node α ν) (level : Nat)
    (hlen : (strF n.dataN).length ≤ (reprF n.dataN).length) :
    (printN strF reprF tabchr tabsize n level).head? =
      some (String.mk (List.replicate
          (level * tabsize + ((reprF n.dataN).length - (strF n.dataN).length))
          tabchr)
        ++ strF n.dataN ++ (if n.flagN then "#" else "")) := by
  cases n with
  | mk d f v cs =>
    simp only [dataN_mk, flagN_mk] at hlen ⊢
    rw [printN, pyRjust]
    simp only [List.head?_cons]
    have h : (reprF d).length + level * tabsize - (strF d).length =
        level * tabsize + ((reprF d).length - (strF d).length) := by
      omega
    rw [h]

/-- The root line of `printtree`: the text `None` (from `str(None)`,
justified to `len(repr(None)) = 4` which pads nothing), plus the marker
when the root is terminal. -/
theorem printT_head (strF reprF : α → String) (tabchr : Char) (tabsize : Nat)
    (t : Trie α ν) :
    printT strF reprF tabchr tabsize t =
      ("None" ++ (if t.rootFlag then "#" else ""))
        :: printL strF reprF tabchr tabsize t.rootChildren 1 := by
  rw [printT, pyRjust]
  have h : "None".length + 0 * tabsize - "None".length = 0 := by omega
  rw [h]
  simp

/-- Existence characterisation of `hassuperset` on a non-empty set query. -/
theorem hassupersetT_iff_exists {t : Trie α ν} (ht : trieInv t = true)
    {Q : List α} (hnd : Q.Nodup) (hQ : Q ≠ []) :
    (hassupersetT t Q = true ↔ ∃ s ∈ storedSets t, ∀ y ∈ Q, y ∈ s) := by
  rw [trieInv, listInv] at ht
  obtain ⟨hsd, hni⟩ := band_iff.mp ht
  rw [hassupersetT]
  cases hs : sortQ Q with
  | nil => exact absurd (sortQ_nil_iff.mp hs) hQ
  | cons x xs =>
    constructor
    · intro h
      obtain ⟨s, hsmem, hsub⟩ := hassupL_sound.2 t.rootChildren hni x xs h
      refine ⟨s, ?_, ?_⟩
      · rw [storedSets]
        exact List.mem_append_right _ hsmem
      · intro y hy
        apply hsub
        rw [← hs]
        exact mem_sortQ.mpr hy
    · rintro ⟨s, hsmem, hsub⟩
      have hpw : (x :: xs).Pairwise (· < ·) := by
        rw [← hs]
        exact sortQ_pairwise_lt hnd
      have hsub2 : ∀ y ∈ x :: xs, y ∈ s := by
        intro y hy
        apply hsub
        apply mem_sortQ.mp
        rw [hs]
        exact hy
      have hsL : s ∈ setsL t.rootChildren := by
        rw [storedSets] at hsmem
        rcases List.mem_append.mp hsmem with h1 | h1
        · exfalso
          have hse : s = [] := by
            cases hflag : t.rootFlag <;> rw [hflag] at h1 <;> simpa using h1
          rw [hse] at hsub2
          exact absurd (hsub2 x (List.mem_cons_self _ _)) (List.not_mem_nil _)
        · exact h1
      exact hassupL_complete.2 t.rootChildren hsd hni x xs s hpw hsL hsub2

/-- The superset enumeration is the pre-order stored-set list filtered by
the superset condition. -/
theorem supersetsT_eq_filter {t : Trie α ν} (ht : trieInv t = true)
    {Q : List α} (hnd : Q.Nodup) :
    supersetsT termKeys t Q = (storedSets t).filter (fun s => subOf (sortQ Q) s) := by
  rw [trieInv, listInv] at ht
  obtain ⟨hsd, hni⟩ := band_iff.mp ht
  cases hs : sortQ Q with
  | nil =>
    simp only [supersetsT, hs]
    rw [iter_termKeys_eq.2, storedSets]
    have hfilter : ((if t.rootFlag then [[]] else []) ++ setsL t.rootChildren).filter
        (fun s => subOf ([] : List α) s) =
        (if t.rootFlag then [[]] else []) ++ setsL t.rootChildren := by
      apply List.filter_eq_self.mpr
      intro a _
      simp [subOf]
    rw [hfilter]
    cases hflag : t.rootFlag <;> simp [termKeys]
  | cons x xs =>
    have hpw : (x :: xs).Pairwise (· < ·) := by
      rw [← hs]
      exact sortQ_pairwise_lt hnd
    simp only [supersetsT, hs]
    rw [supL_filter.2 t.rootChildren hsd hni x xs [] hpw, storedSets,
      List.filter_append]
    have hif : List.filter (fun s => subOf (x :: xs) s)
        (if t.rootFlag then [[]] else []) = [] := by
      cases t.rootFlag <;> simp [subOf]
    rw [hif, List.nil_append]
    simp

/-- Nonemptiness of the superset enumeration is existence of a stored
superset. -/
theorem supersetsT_ne_nil_iff {t : Trie α ν} (ht : trieInv t = true)
    {Q : List α} (hnd : Q.Nodup) :
    (supersetsT termKeys t Q ≠ [] ↔ ∃ s ∈ storedSets t, ∀ y ∈ Q, y ∈ s) := by
  rw [supersetsT_eq_filter ht hnd]
  constructor
  · intro h
    obtain ⟨s, hsmem⟩ := List.exists_mem_of_ne_nil _ h
    rw [List.mem_filter] at hsmem
    refine ⟨s, hsmem.1, ?_⟩
    intro y hy
    exact subOf_iff.mp hsmem.2 y (mem_sortQ.mpr hy)
  · rintro ⟨s, hsmem, hsub⟩
    apply List.ne_nil_of_mem (a := s)
    rw [List.mem_filter]
    exact ⟨hsmem, subOf_iff.mpr (fun y hy => hsub y (mem_sortQ.mp hy))⟩

/-- The subset enumeration is the pre-order stored-set list filtered by the
subset condition (no invariant needed: the query is a membership oracle). -/
theorem subsetsT_eq_filter (t : Trie α ν) (Q : List α) :
    subsetsT termKeys t Q = (storedSets t).filter (fun s => subOf s Q) := by
  rw [subsetsT, subL_filter.2, storedSets, List.filter_append]
  have hif : List.filter (fun s => subOf s Q) (if t.rootFlag then [[]] else []) =
      (if t.rootFlag then [[]] else []) := by
    cases t.rootFlag <;> simp [subOf]
  rw [hif]
  cases t.rootFlag <;> simp [termKeys]

/-- Existence characterisation of `hassubset`. -/
theorem hassubsetT_iff_exists {t : Trie α ν} (ht : trieInv t = true) (Q : List α) :
    (hassubsetT t Q = true ↔ ∃ s ∈ storedSets t, ∀ y ∈ s, y ∈ Q) := by
  rw [trieInv, listInv] at ht
  obtain ⟨hsd, hni⟩ := band_iff.mp ht
  rw [hassubsetT]
  constructor
  · intro h
    rcases hassubC_sound (sortQ Q) t.rootFlag t.rootChildren h with hf | ⟨s, hsmem, hsub⟩
    · refine ⟨[], ?_, by simp⟩
      rw [storedSets, hf]
      simp
    · refine ⟨s, ?_, ?_⟩
      · rw [storedSets]
        exact List.mem_append_right _ hsmem
      · intro y hy
        exact mem_sortQ.mp (hsub y hy)
  · rintro ⟨s, hsmem, hsub⟩
    apply hassubC_complete (sortQ Q) _ _ hsd hni (sortQ_sorted Q)
    rw [storedSets] at hsmem
    rcases List.mem_append.mp hsmem with h1 | h1
    · left
      cases hflag : t.rootFlag with
      | false =>
        rw [hflag] at h1
        simp at h1
      | true => rfl
    · right
      exact ⟨s, h1, fun y hy => mem_sortQ.mpr (hsub y hy)⟩

/-- Nonemptiness of the subset enumeration is existence of a stored
subset. -/
theorem subsetsT_ne_nil_iff (t : Trie α ν) (Q : List α) :
    (subsetsT termKeys t Q ≠ [] ↔ ∃ s ∈ storedSets t, ∀ y ∈ s, y ∈ Q) := by
  rw [subsetsT_eq_filter]
  constructor
  · intro h
    obtain ⟨s, hsmem⟩ := List.exists_mem_of_ne_nil _ h
    rw [List.mem_filter] at hsmem
    exact ⟨s, hsmem.1, subOf_iff.mp hsmem.2⟩
  · rintro ⟨s, hsmem, hsub⟩
    apply List.ne_nil_of_mem (a := s)
    rw [List.mem_filter]
    exact ⟨hsmem, subOf_iff.mpr hsub⟩

/-- Stored paths are strictly increasing on invariant-satisfying states. -/
theorem storedSets_sorted {t : Trie α ν} (ht : trieInv t = true) :
    ∀ s ∈ storedSets t, s.Pairwise (· < ·) := by
  intro s hs
  rw [trieInv, listInv] at ht
  obtain ⟨_, hni⟩ := band_iff.mp ht
  rw [storedSets] at hs
  rcases List.mem_append.mp hs with h1 | h1
  · have hse : s = [] := by
      cases hflag : t.rootFlag <;> rw [hflag] at h1 <;> simpa using h1
    rw [hse]
    simp
  · obtain ⟨c, hc, hsc⟩ := mem_setsL.mp h1
    exact (setsN_sorted c (nodesInv_mem hni hc) s hsc).1

theorem skelT_inj {t1 t2 : Trie α ν} (h : skelT t1 = skelT t2) :
    t1.rootFlag = t2.rootFlag ∧ skelL t1.rootChildren = skelL t2.rootChildren := by
  rw [skelT, skelT] at h
  injection h with h1 h2 h3
  exact ⟨h1, h3⟩

/-- Containers of equal shape have the same key-mode enumerations. -/
theorem enum_skel_eq {t1 t2 : Trie α ν} (h : skelT t1 = skelT t2) :
    iterT termKeys t1 = iterT termKeys t2 ∧
    (∀ Q : List α, supersetsT termKeys t1 Q = supersetsT termKeys t2 Q) ∧
    (∀ Q : List α, subsetsT termKeys t1 Q = subsetsT termKeys t2 Q) ∧
    storedSets t1 = storedSets t2 := by
  obtain ⟨h1, h2⟩ := skelT_inj h
  have hch : ∀ p : List α,
      iterL termKeys t1.rootChildren p = iterL termKeys t2.rootChildren p := by
    intro p
    rw [← iter_skel.2, h2, iter_skel.2]
  have hsets : setsL t1.rootChildren = setsL t2.rootChildren := by
    rw [← sets_skel.2, h2, sets_skel.2]
  refine ⟨?_, ?_, ?_, ?_⟩
  · rw [iterT, iterT, h1, hch]
    cases hf : t2.rootFlag <;> simp [termKeys]
  · intro Q
    cases hs : sortQ Q with
    | nil =>
      simp only [supersetsT, hs]
      rw [h1, hch]
      cases hf : t2.rootFlag <;> simp [termKeys]
    | cons x xs =>
      simp only [supersetsT, hs]
      rw [← sup_skel.2, h2, sup_skel.2]
  · intro Q
    rw [subsetsT, subsetsT, h1, ← sub_skel.2, h2, sub_skel.2]
    cases hf : t2.rootFlag <;> simp [termKeys]
  · rw [storedSets, storedSets, h1, hsets]

/-- Claim C8.  Assigning a value to an already stored key of a SetTrieMap
overwrites the value: afterwards `get` of that key returns the new value,
every other key's lookup is unchanged, and the container's shape — hence
the set of stored keys and the order of every key enumeration — is
unchanged. -/
theorem assign_overwrite_frame {t : Trie α (Option β)} (ht : trieInv t = true)
    {K : List α} (hK : containsT t K = true) (v : Option β) :
    (∀ dflt, getT (assignMap t K v) K dflt = v) ∧
    (∀ K' : List α, sortQ K' ≠ sortQ K → ∀ dflt,
      getT (assignMap t K v) K' dflt = getT t K' dflt) ∧
    skelT (assignMap t K v) = skelT t ∧
    storedSets (assignMap t K v) = storedSets t ∧
    iterT termKeys (assignMap t K v) = iterT termKeys t ∧
    (∀ Q : List α, supersetsT termKeys (assignMap t K v) Q =
      supersetsT termKeys t Q) ∧
    (∀ Q : List α, subsetsT termKeys (assignMap t K v) Q =
      subsetsT termKeys t Q) := by
  have htl := ht
  rw [trieInv, listInv] at htl
  obtain ⟨hsd, hni⟩ := band_iff.mp htl
  rw [containsT] at hK
  have hskel : skelT (assignMap t K v) = skelT t := by
    rw [assignMap]
    cases hs : sortQ K with
    | nil =>
      rw [hs] at hK
      rw [containsC] at hK
      simp only [addT, hs]
      rw [skelT, skelT, hK]
    | cons x xs =>
      rw [hs] at hK
      rw [containsC] at hK
      simp only [addT, hs]
      rw [skelT, skelT]
      rw [assign_skel_step none (fun _ => v) xs
        (assign_skel none (fun _ => v) xs) x t.rootChildren hsd hni hK]
  have henum := enum_skel_eq hskel
  refine ⟨?_, ?_, hskel, henum.2.2.2, henum.1, henum.2.1, henum.2.2.1⟩
  · intro dflt
    rw [assignMap, getT]
    cases hs : sortQ K with
    | nil =>
      simp only [addT, hs]
      rw [getC]
      simp
    | cons x xs =>
      simp only [addT, hs]
      rw [getC]
      exact (get_assign v dflt xs).2 x t.rootChildren
  · intro K2 hne dflt
    rw [assignMap, getT, getT]
    cases hs : sortQ K with
    | nil =>
      simp only [addT, hs]
      cases hs2 : sortQ K2 with
      | nil => exact absurd (hs2.trans hs.symm) hne
      | cons w ws => rw [getC, getC]
    | cons x xs =>
      simp only [addT, hs]
      cases hs2 : sortQ K2 with
      | nil => rw [getC, getC]
      | cons w ws =>
        rw [getC, getC]
        have hne2 : (x :: xs) ≠ (w :: ws) := by
          intro hh
          apply hne
          rw [hs2, hs]
          exact hh.symm
        exact get_other_step v dflt xs
          (fun lq hnl n hn => get_other v dflt xs lq hnl n hn)
          x w ws hne2 t.rootChildren hsd hni

/-- Claim C1, counterexample.  On the empty trie with the empty query,
`hassuperset` returns `True` (the index immediately passes the end of the
sorted query) although `supersets` enumerates nothing and no set is
stored; the claimed three-way equivalence fails at exactly this corner. -/
theorem superset_correctness_cex :
    hassupersetT (emptyTrie () : Trie Nat Unit) ([] : List Nat) = true ∧
    supersetsT termKeys (emptyTrie () : Trie Nat Unit) ([] : List Nat) = [] ∧
    storedSets (emptyTrie () : Trie Nat Unit) = [] := by
  refine ⟨?_, ?_, ?_⟩
  · simp [hassupersetT, emptyTrie, sortQ, List.insertionSort, hassupL]
  · simp [supersetsT, emptyTrie, sortQ, List.insertionSort, iterL, termKeys]
  · simp [storedSets, emptyTrie, setsL_nil]

/-- Claim C1, amended.  For every container state satisfying the
reachable-state invariant and every duplicate-free query set Q, provided Q
is non-empty or at least one set is stored, the three statements are
equivalent: `hassuperset(Q)` is true, `supersets(Q)` is non-empty, and
some stored set contains every element of Q.  (On the empty trie with
empty Q, `hassuperset` is true while the other two fail.) -/
theorem superset_correctness {t : Trie α ν} (ht : trieInv t = true)
    {Q : List α} (hnd : Q.Nodup) (hne : Q ≠ [] ∨ storedSets t ≠ []) :
    (hassupersetT t Q = true ↔ supersetsT termKeys t Q ≠ []) ∧
    (supersetsT termKeys t Q ≠ [] ↔ ∃ s ∈ storedSets t, ∀ y ∈ Q, y ∈ s) := by
  have h2 := supersetsT_ne_nil_iff ht hnd
  refine ⟨?_, h2⟩
  cases Q with
  | nil =>
    rcases hne with h | h
    · exact absurd rfl h
    · have h1 : hassupersetT t ([] : List α) = true := by
        rw [hassupersetT, show sortQ ([] : List α) = [] from rfl, hassupL]
      rw [h1]
      constructor
      · intro _
        apply h2.mpr
        obtain ⟨s, hs⟩ := List.exists_mem_of_ne_nil _ h
        exact ⟨s, hs, by simp⟩
      · intro _
        rfl
  | cons x xs =>
    rw [hassupersetT_iff_exists ht hnd (by simp)]
    exact h2.symm

/-- Claim C1, witness at a concrete container and query. -/
theorem superset_correctness_witness :
    trieInv tW = true ∧ ([1] : List Nat).Nodup ∧ ([1] : List Nat) ≠ [] ∧
    ((hassupersetT tW [1] = true ↔ supersetsT termKeys tW [1] ≠ []) ∧
     (supersetsT termKeys tW [1] ≠ [] ↔
       ∃ s ∈ storedSets tW, ∀ y ∈ ([1] : List Nat), y ∈ s)) := by
  refine ⟨?_, by decide, by decide, ?_⟩
  · simp [tW, addSet, addT, sortQ, List.insertionSort, List.orderedInsert,
      emptyTrie, addL, addN, trieInv, listInv, sortedData, ltAll, nodeInv,
      nodesInv, Node.dataN]
  · exact superset_correctness
      (by simp [tW, addSet, addT, sortQ, List.insertionSort, List.orderedInsert,
        emptyTrie, addL, addN, trieInv, listInv, sortedData, ltAll, nodeInv,
        nodesInv, Node.dataN])
      (by decide) (Or.inl (by decide))

/-- Claim C2.  For every container state satisfying the reachable-state
invariant and every query, the three statements are equivalent:
`hassubset(Q)` is true, `subsets(Q)` is non-empty, and some stored set
(possibly the empty set, stored at the root) lies inside Q. -/
theorem subset_correctness {t : Trie α ν} (ht : trieInv t = true) (Q : List α) :
    (hassubsetT t Q = true ↔ subsetsT termKeys t Q ≠ []) ∧
    (subsetsT termKeys t Q ≠ [] ↔ ∃ s ∈ storedSets t, ∀ y ∈ s, y ∈ Q) := by
  have h1 := hassubsetT_iff_exists ht Q
  have h2 := subsetsT_ne_nil_iff t Q
  exact ⟨h1.trans h2.symm, h2⟩

/-- Claim C2, witness at a concrete container and query. -/
theorem subset_correctness_witness :
    trieInv tW = true ∧
    ((hassubsetT tW [1, 2, 3] = true ↔ subsetsT termKeys tW [1, 2, 3] ≠ []) ∧
     (subsetsT termKeys tW [1, 2, 3] ≠ [] ↔
       ∃ s ∈ storedSets tW, ∀ y ∈ s, y ∈ ([1, 2, 3] : List Nat))) := by
  refine ⟨?_, ?_⟩
  · simp [tW, addSet, addT, sortQ, List.insertionSort, List.orderedInsert,
      emptyTrie, addL, addN, trieInv, listInv, sortedData, ltAll, nodeInv,
      nodesInv, Node.dataN]
  · exact subset_correctness
      (by simp [tW, addSet, addT, sortQ, List.insertionSort, List.orderedInsert,
        emptyTrie, addL, addN, trieInv, listInv, sortedData, ltAll, nodeInv,
        nodesInv, Node.dataN]) [1, 2, 3]

/-- Claim C3, counterexample.  Calling `add` with an empty iterable marks
the root terminal: `_add` hits `StopIteration` at the root and sets its
`flag_last`. -/
theorem root_distinguished_cex :
    (addSet (emptyTrie () : Trie Nat Unit) []).rootFlag = true := by
  simp [addSet, addT, emptyTrie, sortQ, List.insertionSort]

/-- Claim C3, amended.  The root stays non-terminal under every `add` or
`assign` whose iterable is non-empty (in this embedding the root carries no
label at all, so no stored path can mention it); `add` of an empty
iterable, however, marks the root terminal. -/
theorem root_distinguished (nu0 : ν) (fin : ν → ν) (t : Trie α ν)
    {l : List α} (h : l ≠ []) :
    (addT nu0 fin t l).rootFlag = t.rootFlag :=
  addT_rootFlag nu0 fin t h

/-- Claim C3, witness at a concrete container. -/
theorem root_distinguished_witness :
    ([5] : List Nat) ≠ [] ∧
    (addT () id (emptyTrie ()) [5]).rootFlag =
      (emptyTrie () : Trie Nat Unit).rootFlag :=
  ⟨by decide, root_distinguished () id (emptyTrie ()) (by decide)⟩

/-- Claim C4, counterexample.  The iterable with entries 1 and 1 has
pairwise comparable elements (the claimed precondition), yet after adding
it the stored root-to-terminal path is labelled 1, 1 — not strictly
increasing. -/
theorem sorted_path_cex :
    storedSets (addSet (emptyTrie () : Trie Nat Unit) [1, 1]) = [[1, 1]] ∧
    ¬ ([1, 1] : List Nat).Pairwise (· < ·) := by
  constructor
  · simp [addSet, addT, emptyTrie, sortQ, List.insertionSort,
      List.orderedInsert, addL, addN, storedSets, setsL, setsN, Node.dataN]
  · decide

/-- Claim C4, amended.  When each added iterable is additionally
duplicate-free, every `add`/`assign` preserves the sorted-path invariant
(each child's label strictly above its parent's, siblings strictly
sorted), so every stored path is strictly increasing. -/
theorem sorted_path_invariant (nu0 : ν) (fin : ν → ν) {t : Trie α ν}
    (ht : trieInv t = true) {l : List α} (hl : l.Nodup) :
    trieInv (addT nu0 fin t l) = true ∧
    ∀ s ∈ storedSets (addT nu0 fin t l), s.Pairwise (· < ·) := by
  have h1 := addT_inv nu0 fin ht hl
  exact ⟨h1, storedSets_sorted h1⟩

/-- Claim C4, witness at a concrete container. -/
theorem sorted_path_invariant_witness :
    trieInv (emptyTrie () : Trie Nat Unit) = true ∧ ([2, 1] : List Nat).Nodup ∧
    (trieInv (addT () id (emptyTrie ()) [2, 1]) = true ∧
     ∀ s ∈ storedSets (addT () id (emptyTrie () : Trie Nat Unit) [2, 1]),
       s.Pairwise (· < ·)) := by
  refine ⟨?_, by decide, ?_⟩
  · simp [trieInv, listInv, emptyTrie, sortedData, nodesInv]
  · exact sorted_path_invariant () id
      (by simp [trieInv, listInv, emptyTrie, sortedData, nodesInv]) (by decide)

/-- Claim C5, counterexample.  `SetTrieMap.assign` with the null value
makes the final node terminal while its value stays `None`, refuting
`terminal iff value defined` (the inherited `add` does the same). -/
theorem terminal_integrity_cex :
    intgT prMap (assignMap (emptyTrie none : Trie Nat (Option String)) [1]
      (none : Option String)) = false := by
  simp [assignMap, addT, emptyTrie, sortQ, List.insertionSort, addL, addN,
    intgT, intgL, intgN, prMap]

/-- Claim C5, amended.  Terminal integrity (Map: terminal iff value
defined; MultiMap: terminal iff value a non-empty list) is preserved by
`SetTrieMap.assign` of non-null values and by every
`SetTrieMultiMap.assign`; assigning null on the Map, or using the
inherited `add`, breaks it. -/
theorem terminal_integrity {t : Trie α (Option β)} (ht : intgT prMap t = true)
    (K : List α) (b : β) {tm : Trie α (Option (List β))}
    (htm : intgT prMulti tm = true) (K2 : List α) (b2 : β) :
    intgT prMap (assignMap t K (some b)) = true ∧
    intgT prMulti (assignMulti tm K2 b2) = true := by
  constructor
  · exact intg_addT none (fun _ => some b) prMap rfl (fun v0 => rfl) ht K
  · refine intg_addT none (fun v0 => some (v0.getD [] ++ [b2])) prMulti ?_ ?_ htm K2
    · rw [prMulti]
    · intro v0
      rw [prMulti]
      simp

/-- Claim C5, witness at concrete containers. -/
theorem terminal_integrity_witness :
    intgT prMap (emptyTrie none : Trie Nat (Option String)) = true ∧
    intgT prMulti (emptyTrie none : Trie Nat (Option (List String))) = true ∧
    (intgT prMap (assignMap (emptyTrie none : Trie Nat (Option String)) [1]
        (some "A")) = true ∧
     intgT prMulti (assignMulti (emptyTrie none : Trie Nat (Option (List String)))
        [2] "B") = true) := by
  refine ⟨?_, ?_, ?_⟩
  · simp [intgT, emptyTrie, intgL, prMap]
  · simp [intgT, emptyTrie, intgL, prMulti]
  · exact terminal_integrity (by simp [intgT, emptyTrie, intgL, prMap]) [1] "A"
      (by simp [intgT, emptyTrie, intgL, prMulti]) [2] "B"

/-- Claim C6, counterexample.  On a MultiMap whose single key holds two
values, the keys-mode full iteration emits once while the default (pairs)
mode emits twice, refuting the claim that every mode matches the default
mode's number of emissions. -/
theorem projection_consistency_cex :
    (iterT termKeys mmW).length = 1 ∧
    (iterT termPairsMM mmW).length = 2 ∧
    (iterT termKeys mmW).length ≠ (iterT termPairsMM mmW).length := by
  refine ⟨?_, ?_, ?_⟩ <;>
    simp [mmW, assignMulti, addT, sortQ, List.insertionSort, addL, addN,
      emptyTrie, iterT, iterL, iterN, termKeys, termPairsMM]

/-- Claim C6, amended.  For the Map variant every mode (keys, values,
pairs) emits the same number of results in the same order, each the
corresponding projection of the default (pairs) emission, in all three
enumerations.  For the MultiMap the values mode matches the pairs mode
emission for emission; its keys mode instead emits each key once
(the counterexample shows the counts differ). -/
theorem projection_consistency (tm : Trie α (Option β))
    (tmm : Trie α (Option (List β))) (Q : List α) :
    (iterT termKeys tm = (iterT termPairsM tm).map Prod.fst ∧
     iterT termValuesM tm = (iterT termPairsM tm).map Prod.snd ∧
     supersetsT termKeys tm Q = (supersetsT termPairsM tm Q).map Prod.fst ∧
     supersetsT termValuesM tm Q = (supersetsT termPairsM tm Q).map Prod.snd ∧
     subsetsT termKeys tm Q = (subsetsT termPairsM tm Q).map Prod.fst ∧
     subsetsT termValuesM tm Q = (subsetsT termPairsM tm Q).map Prod.snd) ∧
    (iterT termValuesMM tmm = (iterT termPairsMM tmm).map Prod.snd ∧
     supersetsT termValuesMM tmm Q = (supersetsT termPairsMM tmm Q).map Prod.snd ∧
     subsetsT termValuesMM tmm Q = (subsetsT termPairsMM tmm Q).map Prod.snd) := by
  have hk : ∀ (v : Option β) (p : List α),
      termKeys v p = (termPairsM v p).map Prod.fst := by
    intro v p
    simp [termKeys, termPairsM]
  have hv : ∀ (v : Option β) (p : List α),
      termValuesM v p = (termPairsM v p).map Prod.snd := by
    intro v p
    simp [termValuesM, termPairsM]
  have hmm : ∀ (v : Option (List β)) (p : List α),
      termValuesMM v p = (termPairsMM v p).map Prod.snd := by
    intro v p
    simp [termValuesMM, termPairsMM, List.map_map, Function.comp]
  exact ⟨⟨iterT_map_term _ _ _ hk tm, iterT_map_term _ _ _ hv tm,
    supersetsT_map_term _ _ _ hk tm Q, supersetsT_map_term _ _ _ hv tm Q,
    subsetsT_map_term _ _ _ hk tm Q, subsetsT_map_term _ _ _ hv tm Q⟩,
    ⟨iterT_map_term _ _ _ hmm tmm, supersetsT_map_term _ _ _ hmm tmm Q,
     subsetsT_map_term _ _ _ hmm tmm Q⟩⟩

/-- Claim C7.  Adding the same set twice to a SetTrie leaves the container
equal to adding it once, hence observationally identical for `contains`,
`hassuperset`, `hassubset`, `supersets`, `subsets` and full iteration. -/
theorem add_idempotent (t : Trie α Unit) (S : List α) :
    addSet (addSet t S) S = addSet t S ∧
    (∀ Q, containsT (addSet (addSet t S) S) Q = containsT (addSet t S) Q) ∧
    (∀ Q, hassupersetT (addSet (addSet t S) S) Q = hassupersetT (addSet t S) Q) ∧
    (∀ Q, hassubsetT (addSet (addSet t S) S) Q = hassubsetT (addSet t S) Q) ∧
    (∀ Q, supersetsT termKeys (addSet (addSet t S) S) Q =
      supersetsT termKeys (addSet t S) Q) ∧
    (∀ Q, subsetsT termKeys (addSet (addSet t S) S) Q =
      subsetsT termKeys (addSet t S) Q) ∧
    iterT termKeys (addSet (addSet t S) S) = iterT termKeys (addSet t S) := by
  have h : addSet (addSet t S) S = addSet t S :=
    addT_idem () id (fun _ => rfl) t S
  exact ⟨h, fun Q => by rw [h], fun Q => by rw [h], fun Q => by rw [h],
    fun Q => by rw [h], fun Q => by rw [h], by rw [h]⟩

/-- Claim C9, counterexample.  Printing a trie over strings (where the
`str` and `repr` forms differ: `repr` adds quotes), the node at level 1
with tabsize 2 is indented by four copies of the padding character, not
the claimed two: `rjust` pads to `len(repr(data)) + level * tabsize`. -/
theorem printtree_cex :
    printT (fun s => s) (fun s => "'" ++ s ++ "'") ' ' 2 tStr =
      ["None", "    a#"] ∧
    ("    a#" : String) ≠ "  a#" := by
  constructor
  · simp only [printT, printL, printN, pyRjust, tStr]
    decide
  · decide

/-- Claim C9, amended.  Pretty-print emits exactly one line per node in
pre-order; the root's line is literally `None` whenever the root is not
terminal; and a node's line at depth `level` is indented by
`level * tabsize` plus the surplus of the `repr` length over the `str`
length copies of the padding character — exactly `level * tabsize` only
when the two renderings have equal length. -/
theorem printtree_format (strF reprF : α → String) (tabchr : Char)
    (tabsize : Nat) (t : Trie α ν)
    (hlen : ∀ x : α, (strF x).length ≤ (reprF x).length) :
    (printT strF reprF tabchr tabsize t).length = 1 + nodeCountL t.rootChildren ∧
    (t.rootFlag = false → (printT strF reprF tabchr tabsize t).head? = some "None") ∧
    (∀ n : Node α ν, ∀ level,
      (printN strF reprF tabchr tabsize n level).head? =
        some (String.mk (List.replicate
            (level * tabsize + ((reprF n.dataN).length - (strF n.dataN).length))
            tabchr)
          ++ strF n.dataN ++ (if n.flagN then "#" else ""))) := by
  refine ⟨?_, ?_, ?_⟩
  · rw [printT_head]
    simp [(print_length strF reprF tabchr tabsize).2]
    omega
  · intro hflag
    rw [printT_head, hflag]
    simp
  · intro n level
    exact printN_head strF reprF tabchr tabsize n level (hlen n.dataN)

/-- Claim C9, witness: for natural-number elements `str` and `repr`
coincide, so the amended statement applies with zero surplus. -/
theorem printtree_format_witness :
    (∀ x : Nat, (toString x).length ≤ (toString x).length) ∧
    ((printT (fun n => toString n) (fun n => toString n) ' ' 2 tW).length =
        1 + nodeCountL tW.rootChildren ∧
     (tW.rootFlag = false →
       (printT (fun n => toString n) (fun n => toString n) ' ' 2 tW).head? =
         some "None") ∧
     (∀ n : Node Nat Unit, ∀ level,
       (printN (fun n => toString n) (fun n => toString n) ' ' 2 n level).head? =
         some (String.mk (List.replicate
             (level * 2 + ((toString n.dataN).length - (toString n.dataN).length))
             ' ')
           ++ toString n.dataN ++ (if n.flagN then "#" else "")))) :=
  ⟨fun x => le_refl _,
    printtree_format (fun n => toString n) (fun n => toString n) ' ' 2 tW
      (fun x => le_refl _)⟩

/-- Claim C10.  On any container state satisfying the reachable-state
invariant (in particular any trie built by adding duplicate-free
iterables), a query in which some element occurs twice can never be
matched: after sorting, the two copies are adjacent, and once the first is
consumed every deeper label is strictly larger — so `hassuperset` returns
false even when a stored set contains every distinct element of the
query. -/
theorem duplicate_query_hassuperset {t : Trie α ν} (ht : trieInv t = true)
    {Q : List α} (hdup : ¬ Q.Nodup) : hassupersetT t Q = false := by
  rw [trieInv, listInv] at ht
  obtain ⟨hsd, hni⟩ := band_iff.mp ht
  rw [hassupersetT]
  apply hassupL_adjdup.2 t.rootChildren hsd hni (sortQ Q) (sortQ_sorted Q)
  apply hasAdjDup_of_sorted_not_nodup (sortQ Q) (sortQ_sorted Q)
  intro hnd
  exact hdup ((sortQ_perm Q).nodup_iff.mp hnd)

/-- Claim C10, witness: the container stores the set with elements 1 and
3, which contains every distinct element of the query 1, 1 — yet
`hassuperset` is false. -/
theorem duplicate_query_hassuperset_witness :
    trieInv tW = true ∧ ¬ ([1, 1] : List Nat).Nodup ∧
    hassupersetT tW [1, 1] = false := by
  refine ⟨?_, by decide, ?_⟩
  · simp [tW, addSet, addT, sortQ, List.insertionSort, List.orderedInsert,
      emptyTrie, addL, addN, trieInv, listInv, sortedData, ltAll, nodeInv,
      nodesInv, Node.dataN]
  · exact duplicate_query_hassuperset
      (by simp [tW, addSet, addT, sortQ, List.insertionSort, List.orderedInsert,
        emptyTrie, addL, addN, trieInv, listInv, sortedData, ltAll, nodeInv,
        nodesInv, Node.dataN])
      (by decide)

/-- Claim C8, witness: overwrite the value of the stored key 13 in a
concrete SetTrieMap. -/
theorem assign_overwrite_frame_witness :
    trieInv mW = true ∧ containsT mW [1, 3] = true ∧
    ((∀ dflt, getT (assignMap mW [1, 3] (some "Z")) [1, 3] dflt = some "Z") ∧
     (∀ K' : List Nat, sortQ K' ≠ sortQ [1, 3] → ∀ dflt,
       getT (assignMap mW [1, 3] (some "Z")) K' dflt = getT mW K' dflt) ∧
     skelT (assignMap mW [1, 3] (some "Z")) = skelT mW ∧
     storedSets (assignMap mW [1, 3] (some "Z")) = storedSets mW ∧
     iterT termKeys (assignMap mW [1, 3] (some "Z")) = iterT termKeys mW ∧
     (∀ Q : List Nat, supersetsT termKeys (assignMap mW [1, 3] (some "Z")) Q =
       supersetsT termKeys mW Q) ∧
     (∀ Q : List Nat, subsetsT termKeys (assignMap mW [1, 3] (some "Z")) Q =
       subsetsT termKeys mW Q)) := by
  refine ⟨?_, ?_, ?_⟩
  · simp [mW, assignMap, addT, sortQ, List.insertionSort, List.orderedInsert,
      emptyTrie, addL, addN, trieInv, listInv, sortedData, ltAll, nodeInv,
      nodesInv, Node.dataN]
  · simp [mW, assignMap, addT, sortQ, List.insertionSort, List.orderedInsert,
      emptyTrie, addL, addN, containsT, containsC, containsFind]
  · exact assign_overwrite_frame
      (by simp [mW, assignMap, addT, sortQ, List.insertionSort,
        List.orderedInsert, emptyTrie, addL, addN, trieInv, listInv,
        sortedData, ltAll, nodeInv, nodesInv, Node.dataN])
      (by simp [mW, assignMap, addT, sortQ, List.insertionSort,
        List.orderedInsert, emptyTrie, addL, addN, containsT, containsC,
        containsFind])
      (some "Z")

end PySetTrie
